import Mathlib

/-!
Verification development for the publish/subscribe broker and its identifier generator.

Two components of the repository are embedded here.

* `Snowflake`: the identifier generator of `utils/snowflake.go`. Go `int64` values are
  integers in `[-2^63, 2^63)`; every arithmetic or bitwise operation of the source is
  an explicit operation on the 64-bit two's complement pattern. The wall clock
  (`time.Now().UnixNano() / 1e6`) is the list of millisecond readings the generator
  will observe, consumed one per clock read; `none` means that the call is still
  waiting for a reading when the list ends.
* `Broker`: the request loop of `clientService/client.go`. Clients are heap objects
  addressed by a reference, Go maps are key lists, a buffered Go channel is its
  buffer, capacity and closed flag, and a runtime panic is an `Except.error`.
-/

namespace Snowflake

/-! ## 64-bit machine integers -/

/-- Unsigned 64-bit pattern of an integer. -/
def toU64 (x : Int) : Nat := (x % 18446744073709551616).toNat

/-- Signed reading of a 64-bit pattern. -/
def ofU64 (n : Nat) : Int :=
  if n % 18446744073709551616 < 9223372036854775808 then ((n % 18446744073709551616 : Nat) : Int)
  else ((n % 18446744073709551616 : Nat) : Int) - 18446744073709551616

/-- Reduction of an integer to the `int64` range. -/
def wrap64 (x : Int) : Int := ofU64 (toU64 x)

/-- Go `a + b` on `int64`. -/
def add64 (a b : Int) : Int := wrap64 (a + b)

/-- Go `a - b` on `int64`. -/
def sub64 (a b : Int) : Int := wrap64 (a - b)

/-- Go `a << k` on `int64`: bits shifted out are lost. -/
def shl64 (a k : Int) : Int := wrap64 (a * 2 ^ k.toNat)

/-- Go `a >> k` on `int64`: arithmetic shift. -/
def shr64 (a k : Int) : Int := a / 2 ^ k.toNat

/-- Go `a | b` on `int64`. -/
def or64 (a b : Int) : Int := ofU64 (toU64 a ||| toU64 b)

/-- Go `a & b` on `int64`. -/
def and64 (a b : Int) : Int := ofU64 (toU64 a &&& toU64 b)

/-- Go `a ^ b` on `int64`. -/
def xor64 (a b : Int) : Int := ofU64 (toU64 a ^^^ toU64 b)

/-! ## Constants of `snowflake.go` -/

def workerIDBits : Int := 8
def dataCenterIDBits : Int := 8
def sequenceBits : Int := 7

def maxWorkerID : Int := xor64 (-1) (shl64 (-1) workerIDBits)
def maxDataCenterID : Int := xor64 (-1) (shl64 (-1) dataCenterIDBits)
def maxSequence : Int := xor64 (-1) (shl64 (-1) sequenceBits)

def timeShift : Int := workerIDBits + dataCenterIDBits + sequenceBits
def dataCenterIDShift : Int := sequenceBits + workerIDBits
def workerIDShift : Int := sequenceBits
def twepoch : Int := 1609430400000

/-! ## The generator -/

/-- Fields of `EnhancedSnowflake`; the mutex only serialises the calls. -/
structure EnhancedSnowflake where
  lastTimestamp : Int
  dataCenterID : Int
  workerID : Int
  sequence : Int
deriving DecidableEq, Repr

/-- The pair `(int64, error)` returned by `NextID`. -/
structure Ret where
  id : Int
  err : Option String
deriving DecidableEq, Repr

def NewEnhancedSnowflake (dataCenterID workerID : Int) : Except String EnhancedSnowflake :=
  if dataCenterID < 0 ∨ dataCenterID > maxDataCenterID then
    .error "data center ID must be between 0 and 255"
  else if workerID < 0 ∨ workerID > maxWorkerID then
    .error "worker ID must be between 0 and 255"
  else
    .ok { lastTimestamp := -1, dataCenterID := dataCenterID, workerID := workerID, sequence := 0 }

/-- The loop `for timestamp <= s.lastTimestamp { timestamp = now() }` of `NextID`:
the first value of `timestamp` above `last`, with the readings left. -/
def spinUntilNext (last : Int) : Int → List Int → Option (Int × List Int)
  | timestamp, [] => if timestamp ≤ last then none else some (timestamp, [])
  | timestamp, t :: clock =>
    if timestamp ≤ last then spinUntilNext last t clock else some (timestamp, t :: clock)

/-- The identifier expression of `NextID`. -/
def composeID (timestamp dataCenterID workerID sequence : Int) : Int :=
  or64 (or64 (or64 (shl64 (sub64 timestamp twepoch) timeShift)
                   (shl64 dataCenterID dataCenterIDShift))
             (shl64 workerID workerIDShift))
       sequence

/-- The part of `NextID` after the rollback handling: sequence update, optional spin,
store of `lastTimestamp`, composition of the identifier. -/
def issueID (s : EnhancedSnowflake) (timestamp : Int) (clock : List Int) :
    Option (Ret × EnhancedSnowflake × List Int) :=
  if s.lastTimestamp = timestamp then
    let sequence := and64 (add64 s.sequence 1) maxSequence
    if sequence = 0 then
      match spinUntilNext s.lastTimestamp timestamp clock with
      | none => none
      | some (ts, rest) =>
        some (⟨composeID ts s.dataCenterID s.workerID sequence, none⟩,
              { s with sequence := sequence, lastTimestamp := ts }, rest)
    else
      some (⟨composeID timestamp s.dataCenterID s.workerID sequence, none⟩,
            { s with sequence := sequence, lastTimestamp := timestamp }, clock)
  else
    some (⟨composeID timestamp s.dataCenterID s.workerID 0, none⟩,
          { s with sequence := 0, lastTimestamp := timestamp }, clock)

/-- The method `NextID` run against the readings `clock`: the returned pair, the
generator afterwards and the readings not consumed. `time.Sleep` only lets time pass. -/
def NextID (s : EnhancedSnowflake) : List Int → Option (Ret × EnhancedSnowflake × List Int)
  | [] => none
  | timestamp :: clock =>
    if timestamp < s.lastTimestamp then
      let offset := sub64 s.lastTimestamp timestamp
      if offset ≤ 5 then
        match clock with
        | [] => none
        | timestamp2 :: clock2 =>
          if timestamp2 < s.lastTimestamp then
            some (⟨0, some "clock moved backwards after waiting"⟩, s, clock2)
          else issueID s timestamp2 clock2
      else
        some (⟨0, some "clock moved backwards. Refusing to generate id"⟩, s, clock)
    else issueID s timestamp clock

/-- The method `ParseID`. -/
def ParseID (id : Int) : Int × Int × Int × Int :=
  (add64 (shr64 id timeShift) twepoch,
   and64 (shr64 id dataCenterIDShift) maxDataCenterID,
   and64 (shr64 id workerIDShift) maxWorkerID,
   and64 id maxSequence)

/-- Successive `NextID` calls on one generator: the pairs returned, in call order. -/
def callN : Nat → EnhancedSnowflake → List Int → Option (List Ret × EnhancedSnowflake × List Int)
  | 0, s, clock => some ([], s, clock)
  | n + 1, s, clock =>
    match callN n s clock with
    | none => none
    | some (outs, s1, rest) =>
      match NextID s1 rest with
      | none => none
      | some (r, s2, rest2) => some (outs ++ [r], s2, rest2)

/-- Successive `NextID` calls on one generator, as `callN`, each returned pair recorded
together with the generator as that call left it. -/
def callLog : Nat → EnhancedSnowflake → List Int →
    Option (List (Ret × EnhancedSnowflake) × EnhancedSnowflake × List Int)
  | 0, s, clock => some ([], s, clock)
  | n + 1, s, clock =>
    match callLog n s clock with
    | none => none
    | some (log, s1, rest) =>
      match NextID s1 rest with
      | none => none
      | some (r, s2, rest2) => some (log ++ [(r, s2)], s2, rest2)

/-- Values that `time.Now().UnixNano() / 1e6` can take: an `int64` nanosecond count
divided by one million. -/
def IsMillis (t : Int) : Prop := -9223372036854 ≤ t ∧ t ≤ 9223372036854

instance (t : Int) : Decidable (IsMillis t) := by unfold IsMillis; infer_instance

/-- Field ranges of a constructed generator. -/
def FieldsOK (s : EnhancedSnowflake) : Prop :=
  0 ≤ s.dataCenterID ∧ s.dataCenterID ≤ 255 ∧ 0 ≤ s.workerID ∧ s.workerID ≤ 255 ∧
  0 ≤ s.sequence ∧ s.sequence ≤ 127

/-- Clock readings at or after the epoch whose identifier is a non-negative `int64`:
the offset from `twepoch` is below `2^40`. -/
def InRange (t : Int) : Prop := twepoch ≤ t ∧ t - twepoch < 1099511627776

/-- The identifier a generator state stands for, as a number. -/
def keyOf (s : EnhancedSnowflake) : Int :=
  (s.lastTimestamp - twepoch) * 8388608 + s.dataCenterID * 32768 + s.workerID * 128 + s.sequence

/-- Order of two returned pairs: when both carry an identifier, the later is greater. -/
def Increasing (a b : Ret) : Prop := a.err = none → b.err = none → a.id < b.id

instance (s : EnhancedSnowflake) : Decidable (FieldsOK s) := by unfold FieldsOK; infer_instance
instance (t : Int) : Decidable (InRange t) := by unfold InRange; infer_instance
instance (a b : Ret) : Decidable (Increasing a b) := by unfold Increasing; infer_instance

end Snowflake

namespace Broker

/-! ## Data model of `client.go` -/

/-- Bytes produced by `json.Marshal`. -/
abbrev Payload := String

/-- The struct `Message`; `Typ` is its field `Type`. -/
structure Message where
  Typ : String
  Channel : String
  Content : String
  Sender : String
deriving DecidableEq, Repr

/-- A buffered Go channel `chan []byte`: queued payloads (head is next to be received),
capacity, and whether `close` has been called. -/
structure Chan where
  buf : List Payload
  cap : Nat
  closed : Bool
deriving DecidableEq, Repr

/-- The struct `Client` as far as the broker loop uses it. `Channels` is the key set of
the `map[string]bool`, whose values are always `true`. -/
structure Client where
  Id : Int
  Send : Chan
  Channels : List String
deriving DecidableEq, Repr

/-- A pointer `*Client`. -/
abbrev Ref := Nat

/-- The field `Clients` of the `ChannelManager` together with the client objects the
pointers refer to. `Clients channel = none` is a missing map entry; `some l` is an
inner map with key set `l`, iterated in list order. -/
structure BrokerState where
  Clients : String → Option (List Ref)
  clients : Ref → Client

/-- Requests received on the five channels of the `ChannelManager`. -/
inductive Request where
  | Register (client : Ref)
  | Unregister (client : Ref)
  | Join (client : Ref) (channel : String)
  | Leave (client : Ref) (channel : String)
  | Broadcast (message : Message)
deriving DecidableEq, Repr

/-- Go `delete(m, k)` on a key set. -/
def keyDelete {α : Type} [DecidableEq α] (l : List α) (k : α) : List α := l.filter (fun x => x ≠ k)

/-- Go `m[k] = true` on a key set. -/
def keyInsert {α : Type} [DecidableEq α] (l : List α) (k : α) : List α :=
  if k ∈ l then l else l ++ [k]

/-- Go `delete(cm.Clients[channel], client)`: nothing happens on a missing entry. -/
def deleteMember (m : String → Option (List Ref)) (channel : String) (client : Ref) :
    String → Option (List Ref) :=
  match m channel with
  | none => m
  | some l => Function.update m channel (some (keyDelete l client))

/-- Go `close(ch)`: closing a closed channel panics. -/
def closeChan (ch : Chan) : Except String Chan :=
  if ch.closed then .error "close of closed channel" else .ok { ch with closed := true }

/-- The statement `select { case ch <- data: default: }`: a send on a closed channel
panics, a send on a channel with room enqueues (`some`), otherwise the default
branch is taken (`none`). -/
def trySend (ch : Chan) (data : Payload) : Except String (Option Chan) :=
  if ch.closed then .error "send on closed channel"
  else if ch.buf.length < ch.cap then .ok (some { ch with buf := ch.buf ++ [data] })
  else .ok none

def setSend (st : BrokerState) (client : Ref) (ch : Chan) : BrokerState :=
  { st with clients := Function.update st.clients client { st.clients client with Send := ch } }

def setChannels (st : BrokerState) (client : Ref) (l : List String) : BrokerState :=
  { st with clients := Function.update st.clients client { st.clients client with Channels := l } }

/-- The state built by `NewChannelManager` and by the handler of `main.go` for each
connection: no channel entry, every client with an empty `Channels` map and an open,
empty `Send` queue of capacity 256. -/
def init : BrokerState :=
  { Clients := fun _ => none
    clients := fun _ => { Id := 0, Send := { buf := [], cap := 256, closed := false }, Channels := [] } }

/-! ## The loop `Run` -/

/-- The case `Unregister`. -/
def unregister (st : BrokerState) (client : Ref) : Except String BrokerState :=
  let st1 : BrokerState :=
    { st with
      Clients := (st.clients client).Channels.foldl
        (fun m channel => deleteMember m channel client) st.Clients }
  match closeChan (st1.clients client).Send with
  | .error e => .error e
  | .ok ch => .ok (setSend st1 client ch)

/-- The case `Join`. -/
def join (st : BrokerState) (client : Ref) (channel : String) : BrokerState :=
  let m1 : String → Option (List Ref) :=
    match st.Clients channel with
    | none => Function.update st.Clients channel (some [])
    | some _ => st.Clients
  let m2 : String → Option (List Ref) :=
    Function.update m1 channel (some (keyInsert ((m1 channel).getD []) client))
  setChannels { st with Clients := m2 } client
    (keyInsert (st.clients client).Channels channel)

/-- The case `Leave`. -/
def leave (st : BrokerState) (client : Ref) (channel : String) : BrokerState :=
  match st.Clients channel with
  | some _ =>
    setChannels { st with Clients := deleteMember st.Clients channel client } client
      (keyDelete (st.clients client).Channels channel)
  | none => st

/-- One iteration of the fan-out loop of the case `Broadcast`. -/
def deliver (channel : String) (data : Payload) (st : BrokerState) (client : Ref) :
    Except String BrokerState :=
  match trySend (st.clients client).Send data with
  | .error e => .error e
  | .ok (some ch) => .ok (setSend st client ch)
  | .ok none =>
    let st1 : BrokerState := { st with Clients := deleteMember st.Clients channel client }
    let st2 := setChannels st1 client (keyDelete (st1.clients client).Channels channel)
    match closeChan (st2.clients client).Send with
    | .error e => .error e
    | .ok ch => .ok (setSend st2 client ch)

/-- The loop `for client := range clients` over the members found at its start. -/
def fanOut (channel : String) (data : Payload) : List Ref → BrokerState → Except String BrokerState
  | [], st => .ok st
  | client :: rest, st =>
    match deliver channel data st client with
    | .error e => .error e
    | .ok st1 => fanOut channel data rest st1

/-- The case `Broadcast`; `marshal` stands for `json.Marshal`. -/
def broadcast (marshal : Message → Except String Payload) (st : BrokerState) (message : Message) :
    Except String BrokerState :=
  match marshal message with
  | .error _ => .ok st
  | .ok data => fanOut message.Channel data ((st.Clients message.Channel).getD []) st

/-- One turn of the `select` of `Run`; `Except.error` is a panic, which ends the loop. -/
def step (marshal : Message → Except String Payload) (st : BrokerState) :
    Request → Except String BrokerState
  | .Register _ => .ok st
  | .Unregister client => unregister st client
  | .Join client channel => .ok (join st client channel)
  | .Leave client channel => .ok (leave st client channel)
  | .Broadcast message => broadcast marshal st message

/-- The loop `Run` fed with the requests in arrival order. -/
def run (marshal : Message → Except String Payload) : BrokerState → List Request → Except String BrokerState
  | st, [] => .ok st
  | st, r :: rest =>
    match step marshal st r with
    | .error e => .error e
    | .ok st1 => run marshal st1 rest

/-- The client is a key of the inner map of the channel. -/
def Member (st : BrokerState) (client : Ref) (channel : String) : Prop :=
  client ∈ (st.Clients channel).getD []

/-- The channel is a key of the `Channels` map of the client. -/
def Joined (st : BrokerState) (client : Ref) (channel : String) : Prop :=
  channel ∈ (st.clients client).Channels

instance (st : BrokerState) (c : Ref) (ch : String) : Decidable (Member st c ch) := by
  unfold Member; infer_instance

instance (st : BrokerState) (c : Ref) (ch : String) : Decidable (Joined st c ch) := by
  unfold Joined; infer_instance

/-- The `Send` queue of the client has not been closed. -/
def isOpen (st : BrokerState) (client : Ref) : Prop := (st.clients client).Send.closed = false

/-- The `Send` queue of the client holds fewer payloads than its capacity. -/
def hasRoom (st : BrokerState) (client : Ref) : Prop :=
  (st.clients client).Send.buf.length < (st.clients client).Send.cap

instance (st : BrokerState) (c : Ref) : Decidable (isOpen st c) := by
  unfold isOpen; infer_instance

instance (st : BrokerState) (c : Ref) : Decidable (hasRoom st c) := by
  unfold hasRoom; infer_instance

/-- An encoder used to run examples: the payload is the content of the message. -/
def contentOnly (m : Message) : Except String Payload := .ok m.Content

end Broker

namespace Main

/-! ## The connection handler of `main.go` -/

/-- Lines 41 to 56 of the `/ws` handler: a generator is built for the connection, asked
for one identifier, and the client is created with it. `DataCenterID` and `WorkId` are
the constants of the package `common`; `Except.error` is the exit through
`log.Fatalf`. The readings not consumed are returned for the next connection. -/
def newClient (DataCenterID WorkId : Int) (clock : List Int) :
    Option (Except String Broker.Client × List Int) :=
  match Snowflake.NewEnhancedSnowflake DataCenterID WorkId with
  | .error e => some (.error e, clock)
  | .ok work =>
    match Snowflake.NextID work clock with
    | none => none
    | some (r, _, rest) =>
      match r.err with
      | some e => some (.error e, rest)
      | none =>
        some (.ok { Id := r.id, Send := { buf := [], cap := 256, closed := false },
                    Channels := [] }, rest)

/-- Two connections accepted one after the other: the `Id` of each client. -/
def acceptTwo (DataCenterID WorkId : Int) (clock : List Int) : Option (Option Int × Option Int) :=
  match newClient DataCenterID WorkId clock with
  | none => none
  | some (c1, rest) =>
    match newClient DataCenterID WorkId rest with
    | none => none
    | some (c2, _) =>
      some ((match c1 with | .ok c => some c.Id | .error _ => none),
            (match c2 with | .ok c => some c.Id | .error _ => none))

/-- The call `fmt.Sprintf("用户%d", client.Id)`: the fixed prefix followed by the
identifier in decimal. -/
def senderOf (Id : Int) : String := "用户" ++ toString Id

/-- Lines 84 to 107 of the read-event handler, from the decoded `message` on: the
request sent to the `ChannelManager`, if any. `ref` is the pointer to the client of the
connection and `client` the object it refers to. The acknowledgement written back to
the connection is not part of the request. -/
def dispatch (ref : Broker.Ref) (client : Broker.Client) (message : Broker.Message) :
    Option Broker.Request :=
  if message.Typ = "join" then some (.Join ref message.Channel)
  else if message.Typ = "leave" then some (.Leave ref message.Channel)
  else if message.Typ = "message" then
    some (.Broadcast { message with Sender := senderOf client.Id })
  else none

end Main

namespace Snowflake

/-! ## Arithmetic facts about the embedding -/

theorem consts_eval :
    maxWorkerID = 255 ∧ maxDataCenterID = 255 ∧ maxSequence = 127 ∧ timeShift = 23 ∧
    dataCenterIDShift = 15 ∧ workerIDShift = 7 := by decide

theorem wrap64_of_range (x : Int) (h1 : -9223372036854775808 ≤ x) (h2 : x < 9223372036854775808) :
    wrap64 x = x := by
  unfold wrap64 ofU64 toU64
  split <;> omega

theorem toU64_natCast (n : Nat) (h : n < 18446744073709551616) : toU64 (n : Int) = n := by
  unfold toU64
  omega

theorem ofU64_small (n : Nat) (h : n < 9223372036854775808) : ofU64 n = (n : Int) := by
  unfold ofU64
  split <;> omega

theorem or64_disjoint (a b k : Nat) (hb : b < 2 ^ k) (h : a * 2 ^ k + b < 9223372036854775808) :
    or64 ((a * 2 ^ k : Nat) : Int) (b : Int) = ((a * 2 ^ k + b : Nat) : Int) := by
  have hor : a * 2 ^ k ||| b = a * 2 ^ k + b := by
    have := Nat.mul_add_lt_is_or hb a
    rw [Nat.mul_comm] at this
    exact this.symm
  unfold or64
  rw [toU64_natCast _ (by omega), toU64_natCast _ (by omega), hor, ofU64_small _ h]

theorem and64_maxSequence (x : Int) :
    and64 x maxSequence = ((toU64 x % 128 : Nat) : Int) := by
  have h127 : toU64 maxSequence = 127 := by decide
  have hand : toU64 x &&& 127 = toU64 x % 128 := by
    have := Nat.and_pow_two_sub_one_eq_mod (toU64 x) 7
    simpa using this
  unfold and64
  rw [h127, hand, ofU64_small _ (by omega)]

theorem and64_maxSequence_range (x : Int) :
    0 ≤ and64 x maxSequence ∧ and64 x maxSequence ≤ 127 := by
  rw [and64_maxSequence]
  omega

/-- The next sequence number of a generator whose sequence is in the field range. -/
theorem next_sequence (q : Int) (h0 : 0 ≤ q) (h1 : q ≤ 127) :
    and64 (add64 q 1) maxSequence = if q = 127 then 0 else q + 1 := by
  rw [and64_maxSequence, add64, wrap64_of_range _ (by omega) (by omega)]
  unfold toU64
  split <;> omega

/-- The identifier expression as a sum of disjoint fields, for an offset of at most
40 bits and identifier fields in range. -/
theorem composeID_eq (t dc w q : Int)
    (ht0 : twepoch ≤ t) (ht1 : t - twepoch < 1099511627776)
    (hdc0 : 0 ≤ dc) (hdc1 : dc ≤ 255) (hw0 : 0 ≤ w) (hw1 : w ≤ 255)
    (hq0 : 0 ≤ q) (hq1 : q ≤ 127) :
    composeID t dc w q = (t - twepoch) * 8388608 + dc * 32768 + w * 128 + q := by
  obtain ⟨d, hd⟩ := Int.eq_ofNat_of_zero_le (show 0 ≤ t - twepoch by omega)
  obtain ⟨dc, rfl⟩ := Int.eq_ofNat_of_zero_le hdc0
  obtain ⟨w, rfl⟩ := Int.eq_ofNat_of_zero_le hw0
  obtain ⟨q, rfl⟩ := Int.eq_ofNat_of_zero_le hq0
  have e1 : shl64 (sub64 t twepoch) timeShift = ((d * 2 ^ 23 : Nat) : Int) := by
    have hs : sub64 t twepoch = (d : Int) := by
      unfold sub64
      rw [wrap64_of_range _ (by omega) (by omega), hd]
    have : timeShift.toNat = 23 := by decide
    unfold shl64
    rw [hs, this, wrap64_of_range _ (by omega) (by omega)]
    push_cast
    ring
  have e2 : shl64 (dc : Int) dataCenterIDShift = ((dc * 2 ^ 15 : Nat) : Int) := by
    unfold shl64
    have : dataCenterIDShift.toNat = 15 := by decide
    rw [this, wrap64_of_range _ (by omega) (by omega)]
    push_cast
    ring
  have e3 : shl64 (w : Int) workerIDShift = ((w * 2 ^ 7 : Nat) : Int) := by
    unfold shl64
    have : workerIDShift.toNat = 7 := by decide
    rw [this, wrap64_of_range _ (by omega) (by omega)]
    push_cast
    ring
  unfold composeID
  rw [e1, e2, e3]
  have s1 : d * 2 ^ 23 + dc * 2 ^ 15 = (d * 2 ^ 8 + dc) * 2 ^ 15 := by ring
  have s2 : (d * 2 ^ 8 + dc) * 2 ^ 15 + w * 2 ^ 7 = (d * 2 ^ 16 + dc * 2 ^ 8 + w) * 2 ^ 7 := by ring
  have o1 := or64_disjoint d (dc * 2 ^ 15) 23 (by omega) (by omega)
  rw [o1, s1]
  have o2 := or64_disjoint (d * 2 ^ 8 + dc) (w * 2 ^ 7) 15 (by omega) (by omega)
  rw [o2, s2]
  have o3 := or64_disjoint (d * 2 ^ 16 + dc * 2 ^ 8 + w) q 7 (by omega) (by omega)
  rw [o3, hd]
  push_cast
  ring

/-! ## Structure of one `NextID` call -/

theorem spinUntilNext_some (last : Int) :
    ∀ (clock : List Int) (ts t1 : Int) (rest : List Int),
      spinUntilNext last ts clock = some (t1, rest) →
      last < t1 ∧ ∃ used, clock = used ++ rest ∧ (t1 = ts ∨ t1 ∈ used) := by
  intro clock
  induction clock with
  | nil =>
    intro ts t1 rest h
    simp only [spinUntilNext] at h
    split at h
    · cases h
    · simp only [Option.some.injEq, Prod.mk.injEq] at h
      obtain ⟨rfl, rfl⟩ := h
      exact ⟨by omega, [], rfl, Or.inl rfl⟩
  | cons t clock ih =>
    intro ts t1 rest h
    simp only [spinUntilNext] at h
    split at h
    · obtain ⟨h1, used, hu, hm⟩ := ih t t1 rest h
      refine ⟨h1, t :: used, by simp [hu], Or.inr ?_⟩
      rcases hm with rfl | hm
      · simp
      · simp [hm]
    · simp only [Option.some.injEq, Prod.mk.injEq] at h
      obtain ⟨rfl, rfl⟩ := h
      exact ⟨by omega, [], rfl, Or.inl rfl⟩

/-- The spin ends as soon as a reading above `last` is available. -/
theorem spinUntilNext_isSome (last : Int) :
    ∀ (clock : List Int) (ts : Int), (last < ts ∨ ∃ t ∈ clock, last < t) →
      (spinUntilNext last ts clock).isSome = true := by
  intro clock
  induction clock with
  | nil =>
    intro ts h
    have hts : ¬ ts ≤ last := by
      rcases h with h | ⟨t, ht, _⟩
      · omega
      · cases ht
    simp [spinUntilNext, hts]
  | cons t clock ih =>
    intro ts h
    simp only [spinUntilNext]
    split
    · apply ih
      rcases h with h | ⟨u, hu, hlt⟩
      · omega
      · rcases List.mem_cons.mp hu with rfl | hu
        · exact Or.inl hlt
        · exact Or.inr ⟨u, hu, hlt⟩
    · rfl

/-- The spin never ends while no reading exceeds `last`. -/
theorem spinUntilNext_none (last : Int) :
    ∀ (clock : List Int) (ts : Int), ts ≤ last → (∀ t ∈ clock, t ≤ last) →
      spinUntilNext last ts clock = none := by
  intro clock
  induction clock with
  | nil =>
    intro ts h _
    simp [spinUntilNext, h]
  | cons t clock ih =>
    intro ts h hall
    simp only [spinUntilNext, h, if_true]
    exact ih t (hall t (by simp)) (fun u hu => hall u (by simp [hu]))

/-- What a returning `issueID` did. -/
theorem issueID_some (s : EnhancedSnowflake) (ts : Int) (clock : List Int)
    (r : Ret) (s1 : EnhancedSnowflake) (rest : List Int)
    (h : issueID s ts clock = some (r, s1, rest)) :
    ∃ used, clock = used ++ rest ∧ r.err = none ∧
      r.id = composeID s1.lastTimestamp s.dataCenterID s.workerID s1.sequence ∧
      s1.dataCenterID = s.dataCenterID ∧ s1.workerID = s.workerID ∧
      (s1.lastTimestamp = ts ∨ s1.lastTimestamp ∈ used) ∧
      ((s1.lastTimestamp = ts ∧ s.lastTimestamp = ts ∧
          s1.sequence = and64 (add64 s.sequence 1) maxSequence ∧ s1.sequence ≠ 0) ∨
       (s.lastTimestamp = ts ∧ ts < s1.lastTimestamp ∧
          and64 (add64 s.sequence 1) maxSequence = 0 ∧ s1.sequence = 0) ∨
       (s1.lastTimestamp = ts ∧ s.lastTimestamp ≠ ts ∧ s1.sequence = 0)) := by
  unfold issueID at h
  split at h
  · rename_i heq
    simp only at h
    split at h
    · rename_i hz
      split at h
      · cases h
      · rename_i t1 rest1 hspin
        simp only [Option.some.injEq, Prod.mk.injEq] at h
        obtain ⟨rfl, rfl, rfl⟩ := h
        obtain ⟨hlt, used, hu, hm⟩ := spinUntilNext_some _ _ _ _ _ hspin
        refine ⟨used, hu, rfl, by simp [hz], rfl, rfl, ?_, Or.inr (Or.inl ?_)⟩
        · rcases hm with hm | hm
          · exact Or.inl hm
          · exact Or.inr hm
        · exact ⟨heq, by simpa [heq] using hlt, hz, hz⟩
    · rename_i hz
      simp only [Option.some.injEq, Prod.mk.injEq] at h
      obtain ⟨rfl, rfl, rfl⟩ := h
      exact ⟨[], rfl, rfl, rfl, rfl, rfl, Or.inl rfl, Or.inl ⟨rfl, heq, rfl, hz⟩⟩
  · rename_i hne
    simp only [Option.some.injEq, Prod.mk.injEq] at h
    obtain ⟨rfl, rfl, rfl⟩ := h
    exact ⟨[], rfl, rfl, rfl, rfl, rfl, Or.inl rfl, Or.inr (Or.inr ⟨rfl, hne, rfl⟩)⟩

/-- What a returning `NextID` did: it consumed a non-empty prefix `used` of the readings
and either failed, leaving the generator as it was, or issued the identifier composed
from the stored timestamp and sequence. -/
theorem NextID_some (s : EnhancedSnowflake) (clock : List Int)
    (r : Ret) (s1 : EnhancedSnowflake) (rest : List Int)
    (h : NextID s clock = some (r, s1, rest)) :
    ∃ used, clock = used ++ rest ∧ used ≠ [] ∧
      ((r.err ≠ none ∧ r.id = 0 ∧ s1 = s ∧ ∃ t ∈ used, t < s.lastTimestamp) ∨
       (r.err = none ∧
        r.id = composeID s1.lastTimestamp s.dataCenterID s.workerID s1.sequence ∧
        s1.dataCenterID = s.dataCenterID ∧ s1.workerID = s.workerID ∧
        s1.lastTimestamp ∈ used ∧
        ((s1.lastTimestamp = s.lastTimestamp ∧
            s1.sequence = and64 (add64 s.sequence 1) maxSequence ∧ s1.sequence ≠ 0) ∨
         (s.lastTimestamp < s1.lastTimestamp ∧ s1.sequence = 0)))) := by
  have key : ∀ (ts : Int) (cl : List Int), ¬ ts < s.lastTimestamp →
      issueID s ts cl = some (r, s1, rest) →
      ∃ used, cl = used ++ rest ∧
        (r.err = none ∧
        r.id = composeID s1.lastTimestamp s.dataCenterID s.workerID s1.sequence ∧
        s1.dataCenterID = s.dataCenterID ∧ s1.workerID = s.workerID ∧
        (s1.lastTimestamp = ts ∨ s1.lastTimestamp ∈ used) ∧
        ((s1.lastTimestamp = s.lastTimestamp ∧
            s1.sequence = and64 (add64 s.sequence 1) maxSequence ∧ s1.sequence ≠ 0) ∨
         (s.lastTimestamp < s1.lastTimestamp ∧ s1.sequence = 0))) := by
    intro ts cl hge hi
    obtain ⟨used, hu, he, hid, hdc, hw, hm, hcase⟩ := issueID_some s ts cl r s1 rest hi
    refine ⟨used, hu, he, hid, hdc, hw, hm, ?_⟩
    rcases hcase with ⟨a, b, c, d⟩ | ⟨a, b, _, d⟩ | ⟨a, b, c⟩
    · exact Or.inl ⟨by omega, c, d⟩
    · exact Or.inr ⟨by omega, d⟩
    · exact Or.inr ⟨by omega, c⟩
  cases clock with
  | nil => simp [NextID] at h
  | cons t clock =>
    simp only [NextID] at h
    split at h
    · rename_i hlt
      split at h
      · cases clock with
        | nil => simp at h
        | cons t2 clock2 =>
          simp only at h
          split at h
          · simp only [Option.some.injEq, Prod.mk.injEq] at h
            obtain ⟨rfl, rfl, rfl⟩ := h
            exact ⟨[t, t2], rfl, by simp, Or.inl ⟨by simp, rfl, rfl, t, by simp, hlt⟩⟩
          · rename_i hge
            obtain ⟨used, hu, he, hid, hdc, hw, hm, hcase⟩ := key t2 clock2 hge h
            refine ⟨t :: t2 :: used, by simp [hu], by simp, Or.inr ⟨he, hid, hdc, hw, ?_, hcase⟩⟩
            rcases hm with hm | hm
            · simp [hm]
            · simp [hm]
      · simp only [Option.some.injEq, Prod.mk.injEq] at h
        obtain ⟨rfl, rfl, rfl⟩ := h
        exact ⟨[t], rfl, by simp, Or.inl ⟨by simp, rfl, rfl, t, by simp, hlt⟩⟩
    · rename_i hge
      obtain ⟨used, hu, he, hid, hdc, hw, hm, hcase⟩ := key t clock hge h
      refine ⟨t :: used, by simp [hu], by simp, Or.inr ⟨he, hid, hdc, hw, ?_, hcase⟩⟩
      rcases hm with hm | hm
      · simp [hm]
      · simp [hm]

theorem issueID_isSome (s : EnhancedSnowflake) (ts : Int) (clock : List Int)
    (h : s.lastTimestamp ≠ ts ∨ ∃ t ∈ clock, s.lastTimestamp < t) :
    (issueID s ts clock).isSome = true := by
  unfold issueID
  split
  · rename_i heq
    simp only
    split
    · have hex : ∃ t ∈ clock, s.lastTimestamp < t := by
        rcases h with h | h
        · exact absurd heq h
        · exact h
      have hsp := spinUntilNext_isSome s.lastTimestamp clock ts (Or.inr hex)
      cases hs : spinUntilNext s.lastTimestamp ts clock with
      | none => rw [hs] at hsp; cases hsp
      | some p => rfl
    · rfl
  · rfl

/-- A call returns as soon as the readings still to come include one above
`lastTimestamp`. -/
theorem NextID_isSome (s : EnhancedSnowflake) (clock : List Int)
    (h : ∃ t ∈ clock, s.lastTimestamp < t) : (NextID s clock).isSome = true := by
  obtain ⟨u, hu, hlt⟩ := h
  cases clock with
  | nil => cases hu
  | cons t clock =>
    simp only [NextID]
    split
    · rename_i hlt1
      have hu1 : u ∈ clock := by
        rcases List.mem_cons.mp hu with rfl | hu
        · omega
        · exact hu
      split
      · cases clock with
        | nil => cases hu1
        | cons t2 clock2 =>
          simp only
          split
          · rfl
          · rename_i hge
            apply issueID_isSome
            by_cases h2 : s.lastTimestamp = t2
            · right
              rcases List.mem_cons.mp hu1 with rfl | hu2
              · omega
              · exact ⟨u, hu2, hlt⟩
            · exact Or.inl h2
      · rfl
    · rename_i hge
      apply issueID_isSome
      by_cases h2 : s.lastTimestamp = t
      · right
        rcases List.mem_cons.mp hu with rfl | hu2
        · omega
        · exact ⟨u, hu2, hlt⟩
      · exact Or.inl h2

/-! ## Sequences of calls -/

theorem NewEnhancedSnowflake_ok (dc w : Int) (g : EnhancedSnowflake)
    (h : NewEnhancedSnowflake dc w = .ok g) :
    g = ⟨-1, dc, w, 0⟩ ∧ 0 ≤ dc ∧ dc ≤ 255 ∧ 0 ≤ w ∧ w ≤ 255 := by
  obtain ⟨hw, hd, _⟩ := consts_eval
  unfold NewEnhancedSnowflake at h
  rw [hw, hd] at h
  split at h
  · cases h
  · split at h
    · cases h
    · simp only [Except.ok.injEq] at h
      exact ⟨h.symm, by omega, by omega, by omega, by omega⟩

/-- One returning call on a generator with fields in range and readings in range. -/
theorem NextID_step (s : EnhancedSnowflake) (clock : List Int)
    (r : Ret) (s1 : EnhancedSnowflake) (rest : List Int)
    (hs : FieldsOK s) (hrange : ∀ t ∈ clock, InRange t)
    (h : NextID s clock = some (r, s1, rest)) :
    FieldsOK s1 ∧ keyOf s ≤ keyOf s1 ∧
      (r.err = none → r.id = keyOf s1 ∧ keyOf s < keyOf s1) := by
  obtain ⟨used, hu, _, hcase⟩ := NextID_some s clock r s1 rest h
  obtain ⟨h1, h2, h3, h4, h5, h6⟩ := hs
  rcases hcase with ⟨he, _, rfl, _⟩ | ⟨he, hid, hdc, hw, hm, hcase⟩
  · exact ⟨⟨h1, h2, h3, h4, h5, h6⟩, le_refl _, fun h0 => absurd h0 he⟩
  · have hin : InRange s1.lastTimestamp := hrange _ (by rw [hu]; simp [hm])
    obtain ⟨hr0, hr1⟩ := hin
    have hnext := next_sequence s.sequence h5 h6
    have hseq : 0 ≤ s1.sequence ∧ s1.sequence ≤ 127 ∧ keyOf s < keyOf s1 := by
      unfold keyOf
      rw [hdc, hw]
      rcases hcase with ⟨a, b, c⟩ | ⟨a, b⟩
      · rw [hnext] at b
        split at b
        · exact absurd b c
        · omega
      · omega
    obtain ⟨q0, q1, hk⟩ := hseq
    refine ⟨⟨by omega, by omega, by omega, by omega, q0, q1⟩, le_of_lt hk, fun _ => ⟨?_, hk⟩⟩
    rw [hid, composeID_eq _ _ _ _ hr0 hr1 h1 h2 h3 h4 q0 q1]
    unfold keyOf
    rw [hdc, hw]

/-- Safety of any number of calls under an arbitrary clock with readings in range:
identifiers are issued in strictly increasing order. -/
theorem callN_safe (g : EnhancedSnowflake) (clock : List Int)
    (hg : FieldsOK g) (hrange : ∀ t ∈ clock, InRange t) :
    ∀ (n : Nat) (outs : List Ret) (s : EnhancedSnowflake) (rest : List Int),
      callN n g clock = some (outs, s, rest) →
      FieldsOK s ∧ (∃ used, clock = used ++ rest) ∧ outs.Pairwise Increasing ∧
        (∀ r ∈ outs, r.err = none → r.id ≤ keyOf s) := by
  intro n
  induction n with
  | zero =>
    intro outs s rest h
    simp only [callN, Option.some.injEq, Prod.mk.injEq] at h
    obtain ⟨rfl, rfl, rfl⟩ := h
    exact ⟨hg, ⟨[], rfl⟩, List.Pairwise.nil, by simp⟩
  | succ n ih =>
    intro outs s rest h
    simp only [callN] at h
    split at h
    · cases h
    · rename_i outs0 s0 rest0 h0
      split at h
      · cases h
      · rename_i r s2 rest2 hcall
        simp only [Option.some.injEq, Prod.mk.injEq] at h
        obtain ⟨rfl, rfl, rfl⟩ := h
        obtain ⟨hf, ⟨used0, hu0⟩, hp, hle⟩ := ih outs0 s0 rest0 h0
        have hr0 : ∀ t ∈ rest0, InRange t := fun t ht => hrange t (by rw [hu0]; simp [ht])
        obtain ⟨hf2, hk, hid⟩ := NextID_step s0 rest0 r s2 rest2 hf hr0 hcall
        obtain ⟨used1, hu1, _⟩ := NextID_some s0 rest0 r s2 rest2 hcall
        refine ⟨hf2, ⟨used0 ++ used1, by rw [hu0, hu1]; simp⟩, ?_, ?_⟩
        · rw [List.pairwise_append]
          refine ⟨hp, List.pairwise_singleton _ _, ?_⟩
          intro a ha b hb
          rw [List.mem_singleton] at hb
          subst hb
          intro hea heb
          have := hle a ha hea
          have := hid heb
          omega
        · intro a ha hea
          rcases List.mem_append.mp ha with ha | ha
          · have := hle a ha hea
            omega
          · rw [List.mem_singleton] at ha
            subst ha
            have := hid hea
            omega

/-- Under a clock that never decreases and never shows a reading below
`lastTimestamp`, no call returns an error. -/
theorem callN_monotone_clock (g : EnhancedSnowflake) (clock : List Int)
    (hsorted : clock.Pairwise (fun a b => a ≤ b)) (hfirst : ∀ t ∈ clock, g.lastTimestamp ≤ t) :
    ∀ (n : Nat) (outs : List Ret) (s : EnhancedSnowflake) (rest : List Int),
      callN n g clock = some (outs, s, rest) →
      (∃ used, clock = used ++ rest) ∧ (∀ t ∈ rest, s.lastTimestamp ≤ t) ∧
        (∀ r ∈ outs, r.err = none) := by
  intro n
  induction n with
  | zero =>
    intro outs s rest h
    simp only [callN, Option.some.injEq, Prod.mk.injEq] at h
    obtain ⟨rfl, rfl, rfl⟩ := h
    exact ⟨⟨[], rfl⟩, hfirst, by simp⟩
  | succ n ih =>
    intro outs s rest h
    simp only [callN] at h
    split at h
    · cases h
    · rename_i outs0 s0 rest0 h0
      split at h
      · cases h
      · rename_i r s2 rest2 hcall
        simp only [Option.some.injEq, Prod.mk.injEq] at h
        obtain ⟨rfl, rfl, rfl⟩ := h
        obtain ⟨⟨used0, hu0⟩, hlast, herr⟩ := ih outs0 s0 rest0 h0
        obtain ⟨used1, hu1, _, hcase⟩ := NextID_some s0 rest0 r s2 rest2 hcall
        have hs0 : rest0.Pairwise (fun a b => a ≤ b) := by
          rw [hu0, List.pairwise_append] at hsorted
          exact hsorted.2.1
        rw [hu1, List.pairwise_append] at hs0
        rcases hcase with ⟨_, _, _, t, ht, hlt⟩ | ⟨he, _, _, _, hm, _⟩
        · have := hlast t (by rw [hu1]; simp [ht])
          omega
        · refine ⟨⟨used0 ++ used1, by rw [hu0, hu1]; simp⟩, ?_, ?_⟩
          · intro t ht
            exact hs0.2.2 _ hm t ht
          · intro a ha
            rcases List.mem_append.mp ha with ha | ha
            · exact herr a ha
            · rw [List.mem_singleton] at ha
              subst ha
              exact he

/-! ## Closed forms of the branches of `NextID` -/

theorem NextID_no_rollback (s : EnhancedSnowflake) (t : Int) (clock : List Int)
    (h : s.lastTimestamp ≤ t) : NextID s (t :: clock) = issueID s t clock := by
  simp only [NextID]
  rw [if_neg (by omega)]

theorem issueID_later (s : EnhancedSnowflake) (t : Int) (clock : List Int)
    (h : s.lastTimestamp ≠ t) :
    issueID s t clock =
      some (⟨composeID t s.dataCenterID s.workerID 0, none⟩,
            { s with sequence := 0, lastTimestamp := t }, clock) := by
  unfold issueID
  rw [if_neg h]

theorem issueID_same_ms (s : EnhancedSnowflake) (t : Int) (clock : List Int)
    (h : s.lastTimestamp = t) (h0 : 0 ≤ s.sequence) (h1 : s.sequence < 127) :
    issueID s t clock =
      some (⟨composeID t s.dataCenterID s.workerID (s.sequence + 1), none⟩,
            { s with sequence := s.sequence + 1, lastTimestamp := t }, clock) := by
  have hn := next_sequence s.sequence h0 (by omega)
  rw [if_neg (by omega)] at hn
  unfold issueID
  rw [if_pos h]
  simp only [hn]
  rw [if_neg (by omega)]

theorem issueID_exhausted (s : EnhancedSnowflake) (t : Int) (clock : List Int)
    (h : s.lastTimestamp = t) (hq : s.sequence = 127) :
    issueID s t clock =
      match spinUntilNext t t clock with
      | none => none
      | some (t1, rest) =>
        some (⟨composeID t1 s.dataCenterID s.workerID 0, none⟩,
              { s with sequence := 0, lastTimestamp := t1 }, rest) := by
  have hn := next_sequence s.sequence (by omega) (by omega)
  rw [if_pos hq] at hn
  unfold issueID
  rw [if_pos h]
  simp only [hn, h]
  rfl

/-- With the sequence exhausted and the clock stuck at `lastTimestamp` the call does
not return, however many readings are taken. -/
theorem NextID_stuck (s : EnhancedSnowflake) (clock : List Int)
    (hq : s.sequence = 127) (hall : ∀ t ∈ clock, t = s.lastTimestamp) :
    NextID s clock = none := by
  cases clock with
  | nil => rfl
  | cons t clock =>
    have ht : t = s.lastTimestamp := hall t (by simp)
    rw [NextID_no_rollback s t clock (by omega), issueID_exhausted s t clock ht.symm hq,
      spinUntilNext_none t clock t (le_refl _)]
    intro u hu
    have := hall u (by simp [hu])
    omega

/-- A generator asked repeatedly within one millisecond: the call number `n + 1` returns
exactly when a reading is left for it, and then the sequence is `n`, as long as `n` is
at most 127. -/
theorem callN_one_ms (g : EnhancedSnowflake) (T : Int) (hg : g.lastTimestamp < T) :
    ∀ (n : Nat), n ≤ 127 → ∀ (k : Nat),
      (k ≤ n ∧ callN (n + 1) g (List.replicate k T) = none) ∨
      ∃ outs j, k = n + 1 + j ∧ callN (n + 1) g (List.replicate k T) =
        some (outs, ⟨T, g.dataCenterID, g.workerID, (n : Int)⟩, List.replicate j T) := by
  intro n
  induction n with
  | zero =>
    intro _ k
    cases k with
    | zero => left; exact ⟨le_refl _, rfl⟩
    | succ k =>
      right
      refine ⟨[⟨composeID T g.dataCenterID g.workerID 0, none⟩], k, by omega, ?_⟩
      simp only [callN, List.replicate_succ]
      rw [NextID_no_rollback g T _ (by omega), issueID_later g T _ (by omega)]
      rfl
  | succ n ih =>
    intro hn k
    rcases ih (by omega) k with ⟨hk, h⟩ | ⟨outs, j, hk, h⟩
    · left
      refine ⟨by omega, ?_⟩
      rw [callN, h]
    · rw [callN, h]
      simp only
      cases j with
      | zero => left; exact ⟨by omega, rfl⟩
      | succ j =>
        right
        rw [List.replicate_succ, NextID_no_rollback _ T _ (le_refl _),
          issueID_same_ms _ T _ rfl (by simp) (by simp only; omega)]
        exact ⟨outs ++ [⟨composeID T g.dataCenterID g.workerID ((n : Int) + 1), none⟩], j,
          by omega, by simp⟩

/-! ## Decoding -/

theorem and64_255 (x : Int) : and64 x 255 = ((toU64 x % 256 : Nat) : Int) := by
  have h255 : toU64 255 = 255 := by decide
  have hand : toU64 x &&& 255 = toU64 x % 256 := by
    have := Nat.and_pow_two_sub_one_eq_mod (toU64 x) 8
    simpa using this
  unfold and64
  rw [h255, hand, ofU64_small _ (by omega)]

/-- Decoding of an identifier written as the sum of its four fields. -/
theorem ParseID_fields (d dc w q : Int) (hd0 : 0 ≤ d) (hd1 : d < 1099511627776)
    (hdc0 : 0 ≤ dc) (hdc1 : dc ≤ 255) (hw0 : 0 ≤ w) (hw1 : w ≤ 255)
    (hq0 : 0 ≤ q) (hq1 : q ≤ 127) :
    ParseID (d * 8388608 + dc * 32768 + w * 128 + q) = (d + twepoch, dc, w, q) := by
  obtain ⟨hmw, hmd, hmq, hts, hds, hws⟩ := consts_eval
  unfold ParseID
  rw [hmw, hmd, hts, hds, hws, and64_255, and64_255, and64_maxSequence]
  unfold shr64 add64 toU64
  have e23 : (2 : Int) ^ (23 : Int).toNat = 8388608 := by decide
  have e15 : (2 : Int) ^ (15 : Int).toNat = 32768 := by decide
  have e7 : (2 : Int) ^ (7 : Int).toNat = 128 := by decide
  rw [e23, e15, e7]
  have a1 : (d * 8388608 + dc * 32768 + w * 128 + q) / 8388608 = d := by omega
  rw [a1, wrap64_of_range _ (by unfold twepoch; omega) (by unfold twepoch; omega)]
  refine Prod.ext rfl (Prod.ext ?_ (Prod.ext ?_ ?_))
  · simp only
    omega
  · simp only
    omega
  · simp only
    omega

/-! ## Claims about the identifier generator -/

/-- C2 (as stated, refuted): with a generator built by `NewEnhancedSnowflake 1 1` and the
clock standing still at the epoch (readings that never decrease, at the epoch, with
offset 0), the first 128 calls return, and the 129th call never returns, however many
readings are taken: the sequence is exhausted and the loop waits for a later
millisecond. -/
theorem C2_stuck_clock_call_never_returns :
    NewEnhancedSnowflake 1 1 = .ok ⟨-1, 1, 1, 0⟩ ∧
    (∀ k : Nat, (List.replicate k twepoch).Pairwise (fun a b => a ≤ b) ∧
      ∀ t ∈ List.replicate k twepoch, InRange t) ∧
    (callN 128 ⟨-1, 1, 1, 0⟩ (List.replicate 128 twepoch)).isSome = true ∧
    ∀ k : Nat, callN 129 ⟨-1, 1, 1, 0⟩ (List.replicate k twepoch) = none := by
  refine ⟨rfl, ?_, ?_, ?_⟩
  · intro k
    constructor
    · induction k with
      | zero => exact List.Pairwise.nil
      | succ k ih =>
        rw [List.replicate_succ, List.pairwise_cons]
        refine ⟨?_, ih⟩
        intro b hb
        rw [List.eq_of_mem_replicate hb]
    · intro t ht
      rw [List.eq_of_mem_replicate ht]
      decide
  · rcases callN_one_ms ⟨-1, 1, 1, 0⟩ twepoch (by decide) 127 (le_refl _) 128 with
      ⟨hk, _⟩ | ⟨outs, j, _, h⟩
    · omega
    · rw [h]
      rfl
  · intro k
    rcases callN_one_ms ⟨-1, 1, 1, 0⟩ twepoch (by decide) 127 (le_refl _) k with
      ⟨_, h⟩ | ⟨outs, j, _, h⟩
    · rw [callN, h]
    · rw [callN, h]
      simp only
      rw [NextID_stuck _ _ rfl]
      intro t ht
      exact List.eq_of_mem_replicate ht

/-- C2 (as amended): for a generator built by `NewEnhancedSnowflake` and readings that
never decrease and lie in `[twepoch, twepoch + 2^40)`, however many calls have
returned, none returned an error and each identifier is strictly greater than the ones
returned before it; and the next call returns, again without error and with a strictly
greater identifier, whenever a reading above `lastTimestamp` is still to come. -/
theorem C2_monotone_when_clock_advances (dc w : Int) (g : EnhancedSnowflake)
    (hnew : NewEnhancedSnowflake dc w = .ok g) (clock : List Int)
    (hsorted : clock.Pairwise (fun a b => a ≤ b)) (hrange : ∀ t ∈ clock, InRange t)
    (n : Nat) (outs : List Ret) (s : EnhancedSnowflake) (rest : List Int)
    (hrun : callN n g clock = some (outs, s, rest)) :
    (∀ r ∈ outs, r.err = none) ∧ (outs.map Ret.id).Pairwise (fun a b => a < b) ∧
    ((∃ t ∈ rest, s.lastTimestamp < t) →
      ∃ r s1 rest1, callN (n + 1) g clock = some (outs ++ [r], s1, rest1) ∧
        r.err = none ∧ ∀ a ∈ outs, a.id < r.id) := by
  obtain ⟨rfl, d0, d1, w0, w1⟩ := NewEnhancedSnowflake_ok dc w g hnew
  have hg : FieldsOK ⟨-1, dc, w, 0⟩ := ⟨d0, d1, w0, w1, le_refl _, by show (0 : Int) ≤ 127; omega⟩
  have hfirst : ∀ t ∈ clock, (⟨-1, dc, w, 0⟩ : EnhancedSnowflake).lastTimestamp ≤ t := by
    intro t ht
    have := (hrange t ht).1
    unfold twepoch at this
    simp only
    omega
  have main : ∀ (m : Nat) (o : List Ret) (s2 : EnhancedSnowflake) (rs : List Int),
      callN m ⟨-1, dc, w, 0⟩ clock = some (o, s2, rs) →
      (∀ r ∈ o, r.err = none) ∧ (o.map Ret.id).Pairwise (fun a b => a < b) := by
    intro m o s2 rs hm
    obtain ⟨_, _, he⟩ := callN_monotone_clock _ clock hsorted hfirst m o s2 rs hm
    obtain ⟨_, _, hp, _⟩ := callN_safe _ clock hg hrange m o s2 rs hm
    refine ⟨he, ?_⟩
    rw [List.pairwise_map]
    exact hp.imp_of_mem (fun {a b} ha hb hab => hab (he a ha) (he b hb))
  obtain ⟨he, hp⟩ := main n outs s rest hrun
  refine ⟨he, hp, ?_⟩
  intro hex
  have hsome := NextID_isSome s rest hex
  cases hcall : NextID s rest with
  | none => rw [hcall] at hsome; cases hsome
  | some q =>
    obtain ⟨r, s1, rest1⟩ := q
    have hnext : callN (n + 1) ⟨-1, dc, w, 0⟩ clock = some (outs ++ [r], s1, rest1) := by
      rw [callN, hrun]
      simp only
      rw [hcall]
    obtain ⟨he1, hp1⟩ := main (n + 1) _ s1 rest1 hnext
    refine ⟨r, s1, rest1, hnext, he1 r (by simp), ?_⟩
    intro a ha
    rw [List.map_append, List.pairwise_append] at hp1
    exact hp1.2.2 a.id (List.mem_map_of_mem _ ha) r.id (by simp)

/-- C2 witness: two calls within the epoch millisecond, a later reading still to come. -/
theorem C2_monotone_when_clock_advances_witness :
    (∀ r ∈ [(⟨32896, none⟩ : Ret), ⟨32897, none⟩], r.err = none) ∧
    ([(⟨32896, none⟩ : Ret), ⟨32897, none⟩].map Ret.id).Pairwise (fun a b => a < b) ∧
    ((∃ t ∈ [twepoch + 1], (⟨twepoch, 1, 1, 1⟩ : EnhancedSnowflake).lastTimestamp < t) →
      ∃ r s1 rest1,
        callN (2 + 1) ⟨-1, 1, 1, 0⟩ [twepoch, twepoch, twepoch + 1] =
          some ([(⟨32896, none⟩ : Ret), ⟨32897, none⟩] ++ [r], s1, rest1) ∧
        r.err = none ∧ ∀ a ∈ [(⟨32896, none⟩ : Ret), ⟨32897, none⟩], a.id < r.id) :=
  C2_monotone_when_clock_advances 1 1 ⟨-1, 1, 1, 0⟩ rfl
    [twepoch, twepoch, twepoch + 1] (by decide) (by decide) 2
    [⟨32896, none⟩, ⟨32897, none⟩] ⟨twepoch, 1, 1, 1⟩ [twepoch + 1] (by decide)

/-- C3 (as stated, refuted): a reading whose offset from `twepoch` is `2^40`, inside the
41-bit range of the claim, makes `NextID` succeed with a negative identifier, and
`ParseID` of that identifier returns the timestamp `twepoch - 2^40`, not the stored
`twepoch + 2^40`. -/
theorem C3_roundtrip_fails_at_offset_two_pow_40 :
    (0 ≤ (twepoch + 1099511627776) - twepoch ∧
      (twepoch + 1099511627776) - twepoch < 2199023255552) ∧
    NextID ⟨-1, 1, 1, 0⟩ [twepoch + 1099511627776] =
      some (⟨-9223372036854742912, none⟩, ⟨twepoch + 1099511627776, 1, 1, 0⟩, []) ∧
    ParseID (-9223372036854742912) = (twepoch - 1099511627776, 1, 1, 0) ∧
    ParseID (-9223372036854742912) ≠ (twepoch + 1099511627776, 1, 1, 0) := by
  decide

/-- C3 (as amended): for a generator whose `dataCenterID` and `workerID` are in `[0,255]`
and readings whose offset from `twepoch` is in `[0, 2^40)`, if `NextID` succeeds and
returns `id`, then `ParseID id` is exactly the stored `lastTimestamp`, the configured
`dataCenterID` and `workerID`, and the stored sequence, which lies in `[0,127]`. -/
theorem C3_parse_roundtrip (s : EnhancedSnowflake) (clock : List Int)
    (r : Ret) (s1 : EnhancedSnowflake) (rest : List Int)
    (hdc0 : 0 ≤ s.dataCenterID) (hdc1 : s.dataCenterID ≤ 255)
    (hw0 : 0 ≤ s.workerID) (hw1 : s.workerID ≤ 255)
    (hrange : ∀ t ∈ clock, InRange t)
    (h : NextID s clock = some (r, s1, rest)) (herr : r.err = none) :
    ParseID r.id = (s1.lastTimestamp, s.dataCenterID, s.workerID, s1.sequence) ∧
      0 ≤ s1.sequence ∧ s1.sequence ≤ 127 := by
  obtain ⟨used, hu, _, hcase⟩ := NextID_some s clock r s1 rest h
  rcases hcase with ⟨he, _⟩ | ⟨_, hid, _, _, hm, hcase⟩
  · exact absurd herr he
  · obtain ⟨hr0, hr1⟩ := hrange s1.lastTimestamp (by rw [hu]; simp [hm])
    have hq : 0 ≤ s1.sequence ∧ s1.sequence ≤ 127 := by
      rcases hcase with ⟨_, b, _⟩ | ⟨_, b⟩
      · rw [b]
        exact and64_maxSequence_range _
      · omega
    refine ⟨?_, hq.1, hq.2⟩
    rw [hid, composeID_eq _ _ _ _ hr0 hr1 hdc0 hdc1 hw0 hw1 hq.1 hq.2,
      ParseID_fields _ _ _ _ (by omega) hr1 hdc0 hdc1 hw0 hw1 hq.1 hq.2]
    simp

/-- C3 witness: the second call within one millisecond, decoded. -/
theorem C3_parse_roundtrip_witness :
    ParseID (⟨83918982, none⟩ : Ret).id =
        ((⟨twepoch + 10, 1, 1, 6⟩ : EnhancedSnowflake).lastTimestamp,
          (⟨twepoch + 10, 1, 1, 5⟩ : EnhancedSnowflake).dataCenterID,
          (⟨twepoch + 10, 1, 1, 5⟩ : EnhancedSnowflake).workerID,
          (⟨twepoch + 10, 1, 1, 6⟩ : EnhancedSnowflake).sequence) ∧
      0 ≤ (⟨twepoch + 10, 1, 1, 6⟩ : EnhancedSnowflake).sequence ∧
      (⟨twepoch + 10, 1, 1, 6⟩ : EnhancedSnowflake).sequence ≤ 127 :=
  C3_parse_roundtrip ⟨twepoch + 10, 1, 1, 5⟩ [twepoch + 7, twepoch + 10]
    ⟨83918982, none⟩ ⟨twepoch + 10, 1, 1, 6⟩ [] (by decide) (by decide) (by decide) (by decide)
    (by decide) (by decide) rfl

/-- C9 (as stated, refuted): the state with `lastTimestamp = twepoch + 10` and sequence
127 is what 128 calls within that millisecond leave behind. A first reading 3 ms
back is within tolerance and the second reading equals `lastTimestamp`, yet the call
goes on reading: with two further readings it returns only after the fourth, and
with the clock standing at `lastTimestamp` it never returns at all. -/
theorem C9_sequence_exhausted_after_wait :
    (∃ outs, callN 128 ⟨-1, 1, 1, 0⟩ (List.replicate 128 (twepoch + 10)) =
      some (outs, ⟨twepoch + 10, 1, 1, 127⟩, [])) ∧
    NextID ⟨twepoch + 10, 1, 1, 127⟩ [twepoch + 7, twepoch + 10, twepoch + 10, twepoch + 11] =
      some (⟨92307584, none⟩, ⟨twepoch + 11, 1, 1, 0⟩, []) ∧
    ∀ k : Nat, NextID ⟨twepoch + 10, 1, 1, 127⟩
      ((twepoch + 7) :: (twepoch + 10) :: List.replicate k (twepoch + 10)) = none := by
  refine ⟨?_, by decide, ?_⟩
  · rcases callN_one_ms ⟨-1, 1, 1, 0⟩ (twepoch + 10) (by decide) 127 (le_refl _) 128 with
      ⟨hk, _⟩ | ⟨outs, j, hj, h⟩
    · omega
    · have hj0 : j = 0 := by omega
      subst hj0
      exact ⟨outs, h⟩
  · intro k
    have h1 : sub64 (twepoch + 10) (twepoch + 7) ≤ 5 := by decide
    have h2 : twepoch + 7 < twepoch + 10 := by decide
    simp only [NextID, h2, if_true, h1, lt_irrefl, if_false]
    rw [issueID_exhausted _ _ _ rfl rfl, spinUntilNext_none _ _ _ (le_refl _)]
    intro t ht
    rw [List.eq_of_mem_replicate ht]

/-- C9 (as amended): for millisecond readings and a generator with a non-negative sequence,
when the first reading `t` is below `lastTimestamp`: (i) if `lastTimestamp - t > 5` the
call returns an error and the identifier 0 after that single reading; (ii) if
`lastTimestamp - t <= 5` the call reads the clock once more and, with `t2` that second
reading, returns an error and the identifier 0 when `t2 < lastTimestamp`, and succeeds
with an identifier after exactly these two readings when `t2 > lastTimestamp` or when
`t2 = lastTimestamp` with sequence below 127; when `t2 = lastTimestamp` and the
sequence is 127, it keeps reading and succeeds as soon as a reading above
`lastTimestamp` comes, not returning while none does. The generator is unchanged by a
failed call. -/
theorem C9_rollback_policy (s : EnhancedSnowflake) (t : Int) (clock : List Int)
    (hs : IsMillis s.lastTimestamp) (ht : IsMillis t)
    (hq0 : 0 ≤ s.sequence) (hlt : t < s.lastTimestamp) :
    (5 < s.lastTimestamp - t →
      NextID s (t :: clock) =
        some (⟨0, some "clock moved backwards. Refusing to generate id"⟩, s, clock)) ∧
    (s.lastTimestamp - t ≤ 5 → ∀ (t2 : Int) (clock2 : List Int), clock = t2 :: clock2 →
      (t2 < s.lastTimestamp →
        NextID s (t :: clock) =
          some (⟨0, some "clock moved backwards after waiting"⟩, s, clock2)) ∧
      (s.lastTimestamp < t2 →
        NextID s (t :: clock) =
          some (⟨composeID t2 s.dataCenterID s.workerID 0, none⟩,
                { s with sequence := 0, lastTimestamp := t2 }, clock2)) ∧
      (s.lastTimestamp = t2 → s.sequence < 127 →
        NextID s (t :: clock) =
          some (⟨composeID t2 s.dataCenterID s.workerID (s.sequence + 1), none⟩,
                { s with sequence := s.sequence + 1, lastTimestamp := t2 }, clock2)) ∧
      (s.lastTimestamp = t2 → s.sequence = 127 →
        ((∃ u ∈ clock2, s.lastTimestamp < u) →
          ∃ t3 rest, NextID s (t :: clock) =
            some (⟨composeID t3 s.dataCenterID s.workerID 0, none⟩,
                  { s with sequence := 0, lastTimestamp := t3 }, rest) ∧
            s.lastTimestamp < t3 ∧ t3 ∈ clock2) ∧
        ((∀ u ∈ clock2, u ≤ s.lastTimestamp) → NextID s (t :: clock) = none))) := by
  obtain ⟨hs0, hs1⟩ := hs
  obtain ⟨ht0, ht1⟩ := ht
  have hoff : sub64 s.lastTimestamp t = s.lastTimestamp - t := by
    unfold sub64
    exact wrap64_of_range _ (by omega) (by omega)
  constructor
  · intro h5
    simp only [NextID, hlt, if_true, hoff]
    rw [if_neg (by omega)]
  · intro h5 t2 clock2 hc
    subst hc
    have hwait : ∀ (_ : ¬ t2 < s.lastTimestamp),
        NextID s (t :: t2 :: clock2) = issueID s t2 clock2 := by
      intro hge
      simp only [NextID, hlt, if_true, hoff]
      rw [if_pos h5, if_neg hge]
    refine ⟨?_, ?_, ?_, ?_⟩
    · intro h2
      simp only [NextID, hlt, if_true, hoff]
      rw [if_pos h5, if_pos h2]
    · intro h2
      rw [hwait (by omega), issueID_later s t2 clock2 (by omega)]
    · intro h2 hq
      rw [hwait (by omega), issueID_same_ms s t2 clock2 h2 hq0 hq]
    · intro h2 hq
      rw [hwait (by omega), issueID_exhausted s t2 clock2 h2 hq]
      constructor
      · intro hex
        have hsome := spinUntilNext_isSome t2 clock2 t2 (Or.inr (by rw [← h2]; exact hex))
        cases hsp : spinUntilNext t2 t2 clock2 with
        | none => rw [hsp] at hsome; cases hsome
        | some q =>
          obtain ⟨t3, rest⟩ := q
          obtain ⟨hlt3, used, hu, hm⟩ := spinUntilNext_some _ _ _ _ _ hsp
          refine ⟨t3, rest, rfl, by omega, ?_⟩
          rcases hm with hm | hm
          · omega
          · rw [hu]
            simp [hm]
      · intro hall
        rw [spinUntilNext_none t2 clock2 t2 (le_refl _) (by rw [← h2]; exact hall)]

/-- C9 witness: a rollback of 3 ms followed by a reading that has caught up. -/
theorem C9_rollback_policy_witness :
    NextID ⟨twepoch + 10, 1, 1, 5⟩ [twepoch + 7, twepoch + 10] =
      some (⟨composeID (twepoch + 10) 1 1 (5 + 1), none⟩, ⟨twepoch + 10, 1, 1, 5 + 1⟩, []) :=
  ((C9_rollback_policy ⟨twepoch + 10, 1, 1, 5⟩ (twepoch + 7) [twepoch + 10]
    (by decide) (by decide) (by decide) (by decide)).2 (by decide)
    (twepoch + 10) [] rfl).2.2.1 rfl (by decide)

/-- C10 (as stated, refuted): two readings one millisecond apart whose offsets from
`twepoch` are `2^40 - 1` and `2^40`, both inside the 41-bit range of the claim. Both
calls succeed, and the second identifier is negative, below the first. -/
theorem C10_identifier_wraps_at_offset_two_pow_40 :
    (∀ t ∈ [twepoch + 1099511627775, twepoch + 1099511627776],
      0 ≤ t - twepoch ∧ t - twepoch < 2199023255552) ∧
    NewEnhancedSnowflake 1 1 = .ok ⟨-1, 1, 1, 0⟩ ∧
    callN 2 ⟨-1, 1, 1, 0⟩ [twepoch + 1099511627775, twepoch + 1099511627776] =
      some ([⟨9223372036846420096, none⟩, ⟨-9223372036854742912, none⟩],
            ⟨twepoch + 1099511627776, 1, 1, 0⟩, []) ∧
    ¬ ((9223372036846420096 : Int) < -9223372036854742912) := by
  refine ⟨by decide, rfl, by decide, by decide⟩

/-- C10 (as amended): for a generator built by `NewEnhancedSnowflake` and any sequence
of readings, backward jumps included, whose offsets from `twepoch` are in `[0, 2^40)`,
however many calls have returned, each one returned an error or an identifier strictly
greater than every identifier returned before it; and the next call returns, with an
error or with an identifier strictly greater than all earlier ones, whenever a reading
above `lastTimestamp` is still to come. -/
theorem C10_monotonic_or_fail (dc w : Int) (g : EnhancedSnowflake)
    (hnew : NewEnhancedSnowflake dc w = .ok g) (clock : List Int)
    (hrange : ∀ t ∈ clock, InRange t)
    (n : Nat) (outs : List Ret) (s : EnhancedSnowflake) (rest : List Int)
    (hrun : callN n g clock = some (outs, s, rest)) :
    outs.Pairwise Increasing ∧
    ((∃ t ∈ rest, s.lastTimestamp < t) →
      ∃ r s1 rest1, callN (n + 1) g clock = some (outs ++ [r], s1, rest1) ∧
        (r.err = none → ∀ a ∈ outs, a.err = none → a.id < r.id)) := by
  obtain ⟨rfl, d0, d1, w0, w1⟩ := NewEnhancedSnowflake_ok dc w g hnew
  have hg : FieldsOK ⟨-1, dc, w, 0⟩ := ⟨d0, d1, w0, w1, le_refl _, by show (0 : Int) ≤ 127; omega⟩
  obtain ⟨_, _, hp, _⟩ := callN_safe _ clock hg hrange n outs s rest hrun
  refine ⟨hp, ?_⟩
  intro hex
  have hsome := NextID_isSome s rest hex
  cases hcall : NextID s rest with
  | none => rw [hcall] at hsome; cases hsome
  | some q =>
    obtain ⟨r, s1, rest1⟩ := q
    have hnext : callN (n + 1) ⟨-1, dc, w, 0⟩ clock = some (outs ++ [r], s1, rest1) := by
      rw [callN, hrun]
      simp only
      rw [hcall]
    obtain ⟨_, _, hp1, _⟩ := callN_safe _ clock hg hrange (n + 1) _ s1 rest1 hnext
    refine ⟨r, s1, rest1, hnext, ?_⟩
    intro her a ha hea
    rw [List.pairwise_append] at hp1
    exact hp1.2.2 a ha r (by simp) hea her

/-- C10 witness: a backward jump of 50 ms is refused, a jump of 2 ms is waited out. -/
theorem C10_monotonic_or_fail_witness :
    [(⟨838893696, none⟩ : Ret), ⟨0, some "clock moved backwards. Refusing to generate id"⟩,
      ⟨838893697, none⟩, ⟨838893698, none⟩].Pairwise Increasing ∧
    ((∃ t ∈ [twepoch + 101], (⟨twepoch + 100, 1, 1, 2⟩ : EnhancedSnowflake).lastTimestamp < t) →
      ∃ r s1 rest1,
        callN (4 + 1) ⟨-1, 1, 1, 0⟩
          [twepoch + 100, twepoch + 50, twepoch + 100, twepoch + 98, twepoch + 100,
            twepoch + 101] =
          some ([(⟨838893696, none⟩ : Ret),
                 ⟨0, some "clock moved backwards. Refusing to generate id"⟩,
                 ⟨838893697, none⟩, ⟨838893698, none⟩] ++ [r], s1, rest1) ∧
        (r.err = none →
          ∀ a ∈ [(⟨838893696, none⟩ : Ret),
                 ⟨0, some "clock moved backwards. Refusing to generate id"⟩,
                 ⟨838893697, none⟩, ⟨838893698, none⟩], a.err = none → a.id < r.id)) :=
  C10_monotonic_or_fail 1 1 ⟨-1, 1, 1, 0⟩ rfl
    [twepoch + 100, twepoch + 50, twepoch + 100, twepoch + 98, twepoch + 100, twepoch + 101]
    (by decide) 4
    [⟨838893696, none⟩, ⟨0, some "clock moved backwards. Refusing to generate id"⟩,
      ⟨838893697, none⟩, ⟨838893698, none⟩]
    ⟨twepoch + 100, 1, 1, 2⟩ [twepoch + 101] (by decide)

end Snowflake

namespace Main

/-- C4 (code defect): two connections accepted while the clock shows the same
millisecond, with `common.DataCenterID = 1` and `common.WorkId = 1`. Each handler
builds its own generator, whose sequence starts at 0, so both clients get the same
`Id`. -/
theorem C4_same_millisecond_same_id :
    acceptTwo 1 1 [1700000000000, 1700000000000] =
      some (some 759752871116832896, some 759752871116832896) := by
  decide

end Main

namespace Broker

/-! ## Effect of the map operations -/

theorem mem_keyDelete {α : Type} [DecidableEq α] (l : List α) (k x : α) :
    x ∈ keyDelete l k ↔ x ∈ l ∧ x ≠ k := by
  simp [keyDelete]

theorem mem_keyInsert {α : Type} [DecidableEq α] (l : List α) (k x : α) :
    x ∈ keyInsert l k ↔ x ∈ l ∨ x = k := by
  unfold keyInsert
  split
  · constructor
    · intro h
      exact Or.inl h
    · rintro (h | rfl)
      · exact h
      · assumption
  · simp

theorem mem_deleteMember (m : String → Option (List Ref)) (channel : String) (c x : Ref)
    (ch : String) :
    x ∈ ((deleteMember m channel c) ch).getD [] ↔
      x ∈ (m ch).getD [] ∧ ¬ (x = c ∧ ch = channel) := by
  unfold deleteMember
  cases h : m channel with
  | none =>
    simp only
    constructor
    · intro hx
      refine ⟨hx, ?_⟩
      rintro ⟨_, rfl⟩
      rw [h] at hx
      simp at hx
    · exact fun hx => hx.1
  | some l =>
    simp only
    by_cases hc : ch = channel
    · subst hc
      rw [Function.update_same, h]
      simp [mem_keyDelete]
    · rw [Function.update_noteq hc]
      constructor
      · intro hx
        exact ⟨hx, fun hh => hc hh.2⟩
      · exact fun hx => hx.1

theorem mem_foldl_deleteMember (c x : Ref) (ch : String) :
    ∀ (chans : List String) (m : String → Option (List Ref)),
      x ∈ ((chans.foldl (fun m channel => deleteMember m channel c) m) ch).getD [] ↔
        x ∈ (m ch).getD [] ∧ ¬ (x = c ∧ ch ∈ chans) := by
  intro chans
  induction chans with
  | nil =>
    intro m
    simp
  | cons ch0 chans ih =>
    intro m
    rw [List.foldl_cons, ih, mem_deleteMember]
    simp only [List.mem_cons]
    tauto

@[simp] theorem setSend_Clients (st : BrokerState) (c : Ref) (q : Chan) :
    (setSend st c q).Clients = st.Clients := rfl

@[simp] theorem setChannels_Clients (st : BrokerState) (c : Ref) (l : List String) :
    (setChannels st c l).Clients = st.Clients := rfl

theorem setSend_clients (st : BrokerState) (c : Ref) (q : Chan) (x : Ref) :
    (setSend st c q).clients x =
      if x = c then { st.clients c with Send := q } else st.clients x := by
  unfold setSend
  simp only
  by_cases h : x = c
  · subst h
    simp
  · simp [Function.update_noteq h, h]

theorem setChannels_clients (st : BrokerState) (c : Ref) (l : List String) (x : Ref) :
    (setChannels st c l).clients x =
      if x = c then { st.clients c with Channels := l } else st.clients x := by
  unfold setChannels
  simp only
  by_cases h : x = c
  · subst h
    simp
  · simp [Function.update_noteq h, h]

/-! ## Effect of each request on memberships and queues -/

theorem join_Member (st : BrokerState) (c : Ref) (ch : String) (x : Ref) (ch1 : String) :
    Member (join st c ch) x ch1 ↔ Member st x ch1 ∨ (x = c ∧ ch1 = ch) := by
  unfold Member join
  simp only [setChannels_Clients]
  cases h : st.Clients ch with
  | none =>
    simp only
    by_cases hc : ch1 = ch
    · subst hc
      simp [Function.update_same, h, mem_keyInsert]
    · simp [Function.update_noteq hc, hc]
  | some l =>
    simp only
    by_cases hc : ch1 = ch
    · subst hc
      simp [Function.update_same, h, mem_keyInsert]
    · simp [Function.update_noteq hc, hc]

theorem join_Joined (st : BrokerState) (c : Ref) (ch : String) (x : Ref) (ch1 : String) :
    Joined (join st c ch) x ch1 ↔ Joined st x ch1 ∨ (x = c ∧ ch1 = ch) := by
  unfold Joined join
  rw [setChannels_clients]
  by_cases hx : x = c
  · subst hx
    simp [mem_keyInsert]
  · simp [hx]

theorem join_Send (st : BrokerState) (c : Ref) (ch : String) (x : Ref) :
    ((join st c ch).clients x).Send = (st.clients x).Send := by
  unfold join
  rw [setChannels_clients]
  split
  · rename_i h
    subst h
    rfl
  · rfl

theorem leave_Member (st : BrokerState) (c : Ref) (ch : String) (x : Ref) (ch1 : String) :
    Member (leave st c ch) x ch1 ↔ Member st x ch1 ∧ ¬ (x = c ∧ ch1 = ch) := by
  unfold Member leave
  cases h : st.Clients ch with
  | none =>
    simp only
    constructor
    · intro hx
      refine ⟨hx, ?_⟩
      rintro ⟨_, rfl⟩
      rw [h] at hx
      simp at hx
    · exact fun hx => hx.1
  | some l =>
    simp only [setChannels_Clients]
    exact mem_deleteMember _ _ _ _ _

theorem leave_Joined (st : BrokerState) (c : Ref) (ch : String) (x : Ref) (ch1 : String) :
    Joined (leave st c ch) x ch1 ↔
      Joined st x ch1 ∧ ¬ (x = c ∧ ch1 = ch ∧ (st.Clients ch).isSome = true) := by
  unfold Joined leave
  cases h : st.Clients ch with
  | none => simp
  | some l =>
    simp only [Option.isSome_some, and_true]
    rw [setChannels_clients]
    by_cases hx : x = c
    · subst hx
      simp [mem_keyDelete]
    · simp [hx]

theorem leave_Send (st : BrokerState) (c : Ref) (ch : String) (x : Ref) :
    ((leave st c ch).clients x).Send = (st.clients x).Send := by
  unfold leave
  cases h : st.Clients ch with
  | none => rfl
  | some l =>
    simp only
    rw [setChannels_clients]
    split
    · rename_i h
      subst h
      rfl
    · rfl

theorem unregister_closed (st : BrokerState) (c : Ref)
    (h : (st.clients c).Send.closed = true) :
    unregister st c = .error "close of closed channel" := by
  unfold unregister closeChan
  simp [h]

theorem unregister_ok (st : BrokerState) (c : Ref) (st1 : BrokerState)
    (h : unregister st c = .ok st1) :
    (st.clients c).Send.closed = false ∧
    st1.Clients =
      (st.clients c).Channels.foldl (fun m channel => deleteMember m channel c) st.Clients ∧
    ∀ x, st1.clients x =
      if x = c then { st.clients c with Send := { (st.clients c).Send with closed := true } }
      else st.clients x := by
  unfold unregister closeChan at h
  simp only at h
  cases hc : (st.clients c).Send.closed with
  | true => simp [hc] at h
  | false =>
    simp only [hc] at h
    simp only [Bool.false_eq_true, if_false, Except.ok.injEq] at h
    subst h
    refine ⟨rfl, rfl, ?_⟩
    intro x
    rw [setSend_clients]

theorem unregister_Member (st : BrokerState) (c : Ref) (st1 : BrokerState)
    (h : unregister st c = .ok st1) (x : Ref) (ch : String) :
    Member st1 x ch ↔ Member st x ch ∧ ¬ (x = c ∧ Joined st c ch) := by
  obtain ⟨_, hC, _⟩ := unregister_ok st c st1 h
  unfold Member Joined
  rw [hC]
  exact mem_foldl_deleteMember c x ch _ _

theorem unregister_Joined (st : BrokerState) (c : Ref) (st1 : BrokerState)
    (h : unregister st c = .ok st1) (x : Ref) (ch : String) :
    Joined st1 x ch ↔ Joined st x ch := by
  obtain ⟨_, _, hcl⟩ := unregister_ok st c st1 h
  unfold Joined
  rw [hcl]
  split
  · rename_i hx
    subst hx
    rfl
  · rfl

theorem deliver_closed (channel : String) (data : Payload) (st : BrokerState) (c : Ref)
    (h : (st.clients c).Send.closed = true) :
    deliver channel data st c = .error "send on closed channel" := by
  unfold deliver trySend
  simp [h]

theorem deliver_room (channel : String) (data : Payload) (st : BrokerState) (c : Ref)
    (ho : (st.clients c).Send.closed = false)
    (hr : (st.clients c).Send.buf.length < (st.clients c).Send.cap) :
    deliver channel data st c =
      .ok (setSend st c { (st.clients c).Send with buf := (st.clients c).Send.buf ++ [data] }) := by
  unfold deliver trySend
  simp [ho, hr]

theorem deliver_full (channel : String) (data : Payload) (st : BrokerState) (c : Ref)
    (ho : (st.clients c).Send.closed = false)
    (hf : ¬ (st.clients c).Send.buf.length < (st.clients c).Send.cap) :
    deliver channel data st c =
      .ok (setSend
        (setChannels { st with Clients := deleteMember st.Clients channel c } c
          (keyDelete (st.clients c).Channels channel))
        c { (st.clients c).Send with closed := true }) := by
  unfold deliver trySend closeChan
  simp only [ho, Bool.false_eq_true, if_false, hf]
  rw [setChannels_clients]
  simp [ho]

/-- What one iteration of the fan-out loop does when it does not panic. -/
theorem deliver_ok (channel : String) (data : Payload) (st : BrokerState) (c : Ref)
    (st1 : BrokerState) (h : deliver channel data st c = .ok st1) :
    (st.clients c).Send.closed = false ∧ (∀ x, x ≠ c → st1.clients x = st.clients x) ∧
    (((st.clients c).Send.buf.length < (st.clients c).Send.cap ∧ st1.Clients = st.Clients ∧
        st1.clients c =
          { st.clients c with
            Send := { (st.clients c).Send with buf := (st.clients c).Send.buf ++ [data] } }) ∨
     (¬ (st.clients c).Send.buf.length < (st.clients c).Send.cap ∧
        st1.Clients = deleteMember st.Clients channel c ∧
        st1.clients c =
          { st.clients c with
            Send := { (st.clients c).Send with closed := true }
            Channels := keyDelete (st.clients c).Channels channel })) := by
  cases hc : (st.clients c).Send.closed with
  | true =>
    rw [deliver_closed channel data st c hc] at h
    cases h
  | false =>
    by_cases hr : (st.clients c).Send.buf.length < (st.clients c).Send.cap
    · rw [deliver_room channel data st c hc hr] at h
      simp only [Except.ok.injEq] at h
      subst h
      refine ⟨rfl, ?_, Or.inl ⟨hr, rfl, ?_⟩⟩
      · intro x hx
        rw [setSend_clients, if_neg hx]
      · rw [setSend_clients, if_pos rfl]
    · rw [deliver_full channel data st c hc hr] at h
      simp only [Except.ok.injEq] at h
      subst h
      refine ⟨rfl, ?_, Or.inr ⟨hr, rfl, ?_⟩⟩
      · intro x hx
        rw [setSend_clients, if_neg hx, setChannels_clients, if_neg hx]
      · rw [setSend_clients, if_pos rfl, setChannels_clients, if_pos rfl]

/-- Memberships after one iteration of the fan-out loop: both sides of the membership
relation lose the pair (client, channel) on eviction, and nothing else changes. -/
theorem deliver_membership (channel : String) (data : Payload) (st : BrokerState) (c : Ref)
    (st1 : BrokerState) (h : deliver channel data st c = .ok st1) :
    ∃ evicted : Prop,
      (∀ x ch, Member st1 x ch ↔ Member st x ch ∧ ¬ (evicted ∧ x = c ∧ ch = channel)) ∧
      (∀ x ch, Joined st1 x ch ↔ Joined st x ch ∧ ¬ (evicted ∧ x = c ∧ ch = channel)) := by
  obtain ⟨_, hother, hcase⟩ := deliver_ok channel data st c st1 h
  rcases hcase with ⟨_, hC, hcl⟩ | ⟨_, hC, hcl⟩
  · refine ⟨False, ?_, ?_⟩
    · intro x ch
      unfold Member
      rw [hC]
      simp
    · intro x ch
      unfold Joined
      by_cases hx : x = c
      · subst hx
        rw [hcl]
        simp
      · rw [hother x hx]
        simp
  · refine ⟨True, ?_, ?_⟩
    · intro x ch
      unfold Member
      rw [hC, mem_deleteMember]
      simp
    · intro x ch
      unfold Joined
      by_cases hx : x = c
      · subst hx
        rw [hcl]
        simp [mem_keyDelete]
      · rw [hother x hx]
        simp [hx]

/-! ## Membership consistency along the loop -/

theorem deliver_consistent (channel : String) (data : Payload) (st : BrokerState) (c : Ref)
    (st1 : BrokerState) (h : deliver channel data st c = .ok st1) :
    ((∀ x ch, Member st x ch → Joined st x ch) → ∀ x ch, Member st1 x ch → Joined st1 x ch) ∧
    ∀ x, (∀ ch, Joined st x ch → Member st x ch) → ∀ ch, Joined st1 x ch → Member st1 x ch := by
  obtain ⟨ev, hM, hJ⟩ := deliver_membership channel data st c st1 h
  constructor
  · intro hf x ch hm
    rw [hM] at hm
    rw [hJ]
    exact ⟨hf x ch hm.1, hm.2⟩
  · intro x hb ch hj
    rw [hJ] at hj
    rw [hM]
    exact ⟨hb ch hj.1, hj.2⟩

theorem fanOut_consistent (channel : String) (data : Payload) :
    ∀ (l : List Ref) (st st1 : BrokerState), fanOut channel data l st = .ok st1 →
      ((∀ x ch, Member st x ch → Joined st x ch) → ∀ x ch, Member st1 x ch → Joined st1 x ch) ∧
      ∀ x, (∀ ch, Joined st x ch → Member st x ch) →
        ∀ ch, Joined st1 x ch → Member st1 x ch := by
  intro l
  induction l with
  | nil =>
    intro st st1 h
    simp only [fanOut, Except.ok.injEq] at h
    subst h
    exact ⟨fun hf => hf, fun _ hb => hb⟩
  | cons c l ih =>
    intro st st1 h
    simp only [fanOut] at h
    cases hd : deliver channel data st c with
    | error e => rw [hd] at h; cases h
    | ok st2 =>
      rw [hd] at h
      obtain ⟨f1, b1⟩ := deliver_consistent channel data st c st2 hd
      obtain ⟨f2, b2⟩ := ih st2 st1 h
      exact ⟨fun hf => f2 (f1 hf), fun x hb => b2 x (b1 x hb)⟩

/-- One request keeps `member implies joined`, and keeps `joined implies member` for
every client other than the one being unregistered. -/
theorem step_consistent (marshal : Message → Except String Payload) (st : BrokerState)
    (r : Request) (st1 : BrokerState) (h : step marshal st r = .ok st1) :
    ((∀ x ch, Member st x ch → Joined st x ch) → ∀ x ch, Member st1 x ch → Joined st1 x ch) ∧
    ∀ x, r ≠ .Unregister x → (∀ ch, Joined st x ch → Member st x ch) →
      ∀ ch, Joined st1 x ch → Member st1 x ch := by
  cases r with
  | Register c =>
    simp only [step, Except.ok.injEq] at h
    subst h
    exact ⟨fun hf => hf, fun _ _ hb => hb⟩
  | Unregister c =>
    simp only [step] at h
    constructor
    · intro hf x ch hm
      rw [unregister_Member st c st1 h] at hm
      rw [unregister_Joined st c st1 h]
      exact hf x ch hm.1
    · intro x hne hb ch hj
      have hx : x ≠ c := fun hxc => hne (by rw [hxc])
      rw [unregister_Joined st c st1 h] at hj
      rw [unregister_Member st c st1 h]
      exact ⟨hb ch hj, fun hh => hx hh.1⟩
  | Join c ch0 =>
    simp only [step, Except.ok.injEq] at h
    subst h
    constructor
    · intro hf x ch hm
      rw [join_Member] at hm
      rw [join_Joined]
      rcases hm with hm | hm
      · exact Or.inl (hf x ch hm)
      · exact Or.inr hm
    · intro x _ hb ch hj
      rw [join_Joined] at hj
      rw [join_Member]
      rcases hj with hj | hj
      · exact Or.inl (hb ch hj)
      · exact Or.inr hj
  | Leave c ch0 =>
    simp only [step, Except.ok.injEq] at h
    subst h
    constructor
    · intro hf x ch hm
      rw [leave_Member] at hm
      rw [leave_Joined]
      exact ⟨hf x ch hm.1, fun hh => hm.2 ⟨hh.1, hh.2.1⟩⟩
    · intro x _ hb ch hj
      rw [leave_Joined] at hj
      rw [leave_Member]
      refine ⟨hb ch hj.1, ?_⟩
      rintro ⟨rfl, rfl⟩
      have hmem := hb ch hj.1
      unfold Member at hmem
      cases hC : st.Clients ch with
      | none =>
        rw [hC] at hmem
        simp at hmem
      | some l =>
        exact hj.2 ⟨rfl, rfl, by rw [hC]; rfl⟩
  | Broadcast m =>
    simp only [step, broadcast] at h
    cases hm : marshal m with
    | error e =>
      rw [hm] at h
      simp only [Except.ok.injEq] at h
      subst h
      exact ⟨fun hf => hf, fun _ _ hb => hb⟩
    | ok data =>
      rw [hm] at h
      obtain ⟨f, b⟩ := fanOut_consistent m.Channel data _ st st1 h
      exact ⟨f, fun x _ hb => b x hb⟩

theorem run_consistent (marshal : Message → Except String Payload) :
    ∀ (reqs : List Request) (st st1 : BrokerState), run marshal st reqs = .ok st1 →
      ((∀ x ch, Member st x ch → Joined st x ch) → ∀ x ch, Member st1 x ch → Joined st1 x ch) ∧
      ∀ x, Request.Unregister x ∉ reqs → (∀ ch, Joined st x ch → Member st x ch) →
        ∀ ch, Joined st1 x ch → Member st1 x ch := by
  intro reqs
  induction reqs with
  | nil =>
    intro st st1 h
    simp only [run, Except.ok.injEq] at h
    subst h
    exact ⟨fun hf => hf, fun _ _ hb => hb⟩
  | cons r reqs ih =>
    intro st st1 h
    simp only [run] at h
    cases hs : step marshal st r with
    | error e => rw [hs] at h; cases h
    | ok st2 =>
      rw [hs] at h
      obtain ⟨f1, b1⟩ := step_consistent marshal st r st2 hs
      obtain ⟨f2, b2⟩ := ih st2 st1 h
      refine ⟨fun hf => f2 (f1 hf), ?_⟩
      intro x hx hb
      have hx1 : r ≠ .Unregister x := fun hr => hx (by rw [hr]; simp)
      have hx2 : Request.Unregister x ∉ reqs := fun hr => hx (by simp [hr])
      exact b2 x hx2 (b1 x hx1 hb)

/-! ## The fan-out loop over members with open queues -/

/-- The fan-out loop over distinct clients whose queues are all open does not panic:
clients outside the list are untouched, a listed client with room gets the payload
at the tail of its queue, a listed client without room is evicted. -/
theorem fanOut_open (channel : String) (data : Payload) :
    ∀ (l : List Ref) (st : BrokerState), l.Nodup → (∀ c ∈ l, isOpen st c) →
      ∃ st1, fanOut channel data l st = .ok st1 ∧
        (∀ x, x ∉ l → st1.clients x = st.clients x) ∧
        (∀ x ∈ l, hasRoom st x → st1.clients x =
          { st.clients x with
            Send := { (st.clients x).Send with buf := (st.clients x).Send.buf ++ [data] } }) ∧
        (∀ x ∈ l, ¬ hasRoom st x → st1.clients x =
          { st.clients x with
            Send := { (st.clients x).Send with closed := true }
            Channels := keyDelete (st.clients x).Channels channel }) ∧
        (∀ x ch, Member st1 x ch ↔
          Member st x ch ∧ ¬ (ch = channel ∧ x ∈ l ∧ ¬ hasRoom st x)) ∧
        ((∀ x ∈ l, hasRoom st x) → st1.Clients = st.Clients) := by
  intro l
  induction l with
  | nil =>
    intro st _ _
    exact ⟨st, rfl, fun _ _ => rfl, by simp, by simp, by simp, fun _ => rfl⟩
  | cons c l ih =>
    intro st hnd hopen
    obtain ⟨hcl, hnd1⟩ := List.nodup_cons.mp hnd
    have hc : (st.clients c).Send.closed = false := hopen c (by simp)
    have hdel : ∃ st2, deliver channel data st c = .ok st2 := by
      by_cases hr : (st.clients c).Send.buf.length < (st.clients c).Send.cap
      · exact ⟨_, deliver_room channel data st c hc hr⟩
      · exact ⟨_, deliver_full channel data st c hc hr⟩
    obtain ⟨st2, hd⟩ := hdel
    obtain ⟨_, hother, hcase⟩ := deliver_ok channel data st c st2 hd
    have hsame : ∀ x ∈ l, st2.clients x = st.clients x := by
      intro x hx
      exact hother x (fun hxc => hcl (by rw [← hxc]; exact hx))
    have hopen2 : ∀ x ∈ l, isOpen st2 x := by
      intro x hx
      unfold isOpen
      rw [hsame x hx]
      exact hopen x (by simp [hx])
    obtain ⟨st1, hfan, h1, h2, h3, h4, h5⟩ := ih st2 hnd1 hopen2
    have hroom2 : ∀ x ∈ l, (hasRoom st2 x ↔ hasRoom st x) := by
      intro x hx
      unfold hasRoom
      rw [hsame x hx]
    refine ⟨st1, ?_, ?_, ?_, ?_, ?_, ?_⟩
    · simp only [fanOut]
      rw [hd]
      exact hfan
    · intro x hx
      simp only [List.mem_cons, not_or] at hx
      rw [h1 x hx.2, hother x hx.1]
    · intro x hx hr
      rcases List.mem_cons.mp hx with rfl | hx
      · rw [h1 x hcl]
        rcases hcase with ⟨_, _, e⟩ | ⟨hn, _, _⟩
        · exact e
        · exact absurd hr hn
      · rw [h2 x hx ((hroom2 x hx).mpr hr), hsame x hx]
    · intro x hx hr
      rcases List.mem_cons.mp hx with rfl | hx
      · rw [h1 x hcl]
        rcases hcase with ⟨hy, _, _⟩ | ⟨_, _, e⟩
        · exact absurd hy hr
        · exact e
      · rw [h3 x hx (fun hh => hr ((hroom2 x hx).mp hh)), hsame x hx]
    · intro x ch
      rw [h4 x ch]
      have hM2 : Member st2 x ch ↔ Member st x ch ∧ ¬ (ch = channel ∧ x = c ∧ ¬ hasRoom st c) := by
        unfold Member
        rcases hcase with ⟨hy, e, _⟩ | ⟨hn, e, _⟩
        · rw [e]
          constructor
          · intro hm
            exact ⟨hm, fun hh => hh.2.2 hy⟩
          · exact fun hm => hm.1
        · rw [e, mem_deleteMember]
          constructor
          · rintro ⟨a, b⟩
            exact ⟨a, fun hh => b ⟨hh.2.1, hh.1⟩⟩
          · rintro ⟨a, b⟩
            exact ⟨a, fun hh => b ⟨hh.2, hh.1, hn⟩⟩
      rw [hM2]
      constructor
      · rintro ⟨⟨a, b⟩, d⟩
        refine ⟨a, ?_⟩
        rintro ⟨e1, e2, e3⟩
        rcases List.mem_cons.mp e2 with rfl | e2
        · exact b ⟨e1, rfl, e3⟩
        · exact d ⟨e1, e2, fun hh => e3 ((hroom2 x e2).mp hh)⟩
      · rintro ⟨a, b⟩
        refine ⟨⟨a, ?_⟩, ?_⟩
        · rintro ⟨e1, rfl, e3⟩
          exact b ⟨e1, by simp, e3⟩
        · rintro ⟨e1, e2, e3⟩
          exact b ⟨e1, by simp [e2], fun hh => e3 ((hroom2 x e2).mpr hh)⟩
    · intro hall
      have hrc : hasRoom st c := hall c (by simp)
      rw [h5 (fun x hx => (hroom2 x hx).mpr (hall x (by simp [hx])))]
      rcases hcase with ⟨_, e, _⟩ | ⟨hn, _, _⟩
      · exact e
      · exact absurd hrc hn

/-! ## Key lists stay free of duplicates -/

theorem keyInsert_nodup {α : Type} [DecidableEq α] (l : List α) (k : α) (h : l.Nodup) :
    (keyInsert l k).Nodup := by
  unfold keyInsert
  split
  · exact h
  · rename_i hk
    rw [List.nodup_append]
    refine ⟨h, List.nodup_singleton k, ?_⟩
    intro a ha hb
    rw [List.mem_singleton] at hb
    subst hb
    exact hk ha

theorem deleteMember_nodup (m : String → Option (List Ref)) (channel : String) (c : Ref)
    (h : ∀ ch, ((m ch).getD []).Nodup) :
    ∀ ch, (((deleteMember m channel c) ch).getD []).Nodup := by
  intro ch
  unfold deleteMember
  cases hm : m channel with
  | none => exact h ch
  | some l =>
    simp only
    by_cases hc : ch = channel
    · subst hc
      rw [Function.update_same]
      have := h ch
      rw [hm] at this
      exact List.Nodup.filter _ this
    · rw [Function.update_noteq hc]
      exact h ch

theorem foldl_deleteMember_nodup (c : Ref) :
    ∀ (chans : List String) (m : String → Option (List Ref)),
      (∀ ch, ((m ch).getD []).Nodup) →
      ∀ ch, (((chans.foldl (fun m channel => deleteMember m channel c) m) ch).getD []).Nodup := by
  intro chans
  induction chans with
  | nil =>
    intro m h
    exact h
  | cons ch0 chans ih =>
    intro m h
    rw [List.foldl_cons]
    exact ih _ (deleteMember_nodup m ch0 c h)

theorem fanOut_nodup (channel : String) (data : Payload) :
    ∀ (l : List Ref) (st st1 : BrokerState), fanOut channel data l st = .ok st1 →
      (∀ ch, ((st.Clients ch).getD []).Nodup) → ∀ ch, ((st1.Clients ch).getD []).Nodup := by
  intro l
  induction l with
  | nil =>
    intro st st1 h hn
    simp only [fanOut, Except.ok.injEq] at h
    subst h
    exact hn
  | cons c l ih =>
    intro st st1 h hn
    simp only [fanOut] at h
    cases hd : deliver channel data st c with
    | error e => rw [hd] at h; cases h
    | ok st2 =>
      rw [hd] at h
      apply ih st2 st1 h
      obtain ⟨_, _, hcase⟩ := deliver_ok channel data st c st2 hd
      rcases hcase with ⟨_, e, _⟩ | ⟨_, e, _⟩
      · rw [e]
        exact hn
      · rw [e]
        exact deleteMember_nodup _ _ _ hn

theorem step_nodup (marshal : Message → Except String Payload) (st : BrokerState)
    (r : Request) (st1 : BrokerState) (h : step marshal st r = .ok st1)
    (hn : ∀ ch, ((st.Clients ch).getD []).Nodup) :
    ∀ ch, ((st1.Clients ch).getD []).Nodup := by
  cases r with
  | Register c =>
    simp only [step, Except.ok.injEq] at h
    subst h
    exact hn
  | Unregister c =>
    simp only [step] at h
    obtain ⟨_, hC, _⟩ := unregister_ok st c st1 h
    rw [hC]
    exact foldl_deleteMember_nodup c _ _ hn
  | Join c ch0 =>
    simp only [step, Except.ok.injEq] at h
    subst h
    intro ch
    unfold join
    simp only [setChannels_Clients]
    by_cases hc : ch = ch0
    · subst hc
      rw [Function.update_same]
      apply keyInsert_nodup
      cases hm : st.Clients ch with
      | none => simp
      | some l => exact hn ch
    · rw [Function.update_noteq hc]
      cases hm : st.Clients ch0 with
      | none =>
        simp only
        rw [Function.update_noteq hc]
        exact hn ch
      | some l => exact hn ch
  | Leave c ch0 =>
    simp only [step, Except.ok.injEq] at h
    subst h
    unfold leave
    cases hm : st.Clients ch0 with
    | none => exact hn
    | some l =>
      simp only [setChannels_Clients]
      exact deleteMember_nodup _ _ _ hn
  | Broadcast m =>
    simp only [step, broadcast] at h
    cases hm : marshal m with
    | error e =>
      rw [hm] at h
      simp only [Except.ok.injEq] at h
      subst h
      exact hn
    | ok data =>
      rw [hm] at h
      exact fanOut_nodup m.Channel data _ st st1 h hn

/-- Every state the loop reaches from `init` lists each member of a channel once. -/
theorem run_nodup (marshal : Message → Except String Payload) :
    ∀ (reqs : List Request) (st st1 : BrokerState), run marshal st reqs = .ok st1 →
      (∀ ch, ((st.Clients ch).getD []).Nodup) → ∀ ch, ((st1.Clients ch).getD []).Nodup := by
  intro reqs
  induction reqs with
  | nil =>
    intro st st1 h hn
    simp only [run, Except.ok.injEq] at h
    subst h
    exact hn
  | cons r reqs ih =>
    intro st st1 h hn
    simp only [run] at h
    cases hs : step marshal st r with
    | error e => rw [hs] at h; cases h
    | ok st2 =>
      rw [hs] at h
      exact ih st2 st1 h (step_nodup marshal st r st2 hs hn)

/-! ## Claims about the broker loop -/

/-- C1 (as stated, refuted): after `Join` of client 0 to channel a and `Unregister` of
client 0, the member set of a is empty while a is still a key of the `Channels` map of
the client: `Unregister` deletes the client from the member sets and leaves its
`Channels` map as it was. -/
theorem C1_unregister_keeps_joined_set :
    ∃ st, run contentOnly init [.Join 0 "a", .Unregister 0] = .ok st ∧
      ¬ Member st 0 "a" ∧ Joined st 0 "a" :=
  ⟨_, rfl, by decide, by decide⟩

/-- C1 (as amended): starting from a state with no channel entry and clients with empty
`Channels` maps, after every sequence of requests processed by `Run` without panic,
every member of a channel has that channel in its `Channels` map; and a client for
which no `Unregister` request has been processed is a member of every channel of its
`Channels` map. -/
theorem C1_membership_consistency (marshal : Message → Except String Payload)
    (st0 : BrokerState) (hC : ∀ ch, st0.Clients ch = none)
    (hJ : ∀ c, (st0.clients c).Channels = [])
    (reqs : List Request) (st : BrokerState) (hrun : run marshal st0 reqs = .ok st)
    (S : Ref) (C : String) :
    (Member st S C → Joined st S C) ∧
    (Request.Unregister S ∉ reqs → (Member st S C ↔ Joined st S C)) := by
  obtain ⟨f, b⟩ := run_consistent marshal reqs st0 st hrun
  have hf0 : ∀ x ch, Member st0 x ch → Joined st0 x ch := by
    intro x ch hm
    unfold Member at hm
    rw [hC] at hm
    simp at hm
  have hb0 : ∀ ch, Joined st0 S ch → Member st0 S ch := by
    intro ch hj
    unfold Joined at hj
    rw [hJ] at hj
    simp at hj
  exact ⟨f hf0 S C, fun hS => ⟨f hf0 S C, b S hS hb0 C⟩⟩

/-- C1 witness: two joins and a leave by client 0, an unregister by client 1. -/
theorem C1_membership_consistency_witness :
    ∃ st, run contentOnly init [.Join 0 "a", .Join 1 "a", .Join 0 "b", .Leave 0 "a",
        .Unregister 1] = .ok st ∧
      (Member st 0 "b" → Joined st 0 "b") ∧
      (Request.Unregister 0 ∉ [Request.Join 0 "a", .Join 1 "a", .Join 0 "b", .Leave 0 "a",
        .Unregister 1] → (Member st 0 "b" ↔ Joined st 0 "b")) :=
  ⟨_, rfl, C1_membership_consistency contentOnly init (fun _ => rfl) (fun _ => rfl)
    [.Join 0 "a", .Join 1 "a", .Join 0 "b", .Leave 0 "a", .Unregister 1] _ rfl 0 "b"⟩

/-- C5 (code defect): client 0 is registered and unregistered twice in a row. The first
`Unregister` closes its `Send` queue; the second one executes `close(client.Send)` on
the closed queue, which panics and ends `Run`. -/
theorem C5_second_unregister_panics :
    (∃ st, run contentOnly init [.Register 0, .Unregister 0] = .ok st ∧
      (st.clients 0).Send.closed = true) ∧
    run contentOnly init [.Register 0, .Unregister 0, .Unregister 0] =
      .error "close of closed channel" :=
  ⟨⟨_, rfl, rfl⟩, rfl⟩

set_option maxRecDepth 100000 in
/-- C6 (code defect): client 0 is registered once and joins channels a and b; nothing
drains its queue of capacity 256. The first 256 broadcasts to a fill the queue, the
257th evicts the client from a and closes the queue, leaving the client a member of
b. A broadcast to b then sends on the closed queue, and an `Unregister` of the
client (its only one) closes the closed queue: either way `Run` panics. -/
theorem C6_run_panics_after_eviction :
    (∃ st, run contentOnly init
        ([Request.Register 0, .Join 0 "a", .Join 0 "b"] ++
          List.replicate 257 (.Broadcast ⟨"message", "a", "x", "u"⟩)) = .ok st ∧
      ¬ Member st 0 "a" ∧ Member st 0 "b" ∧ (st.clients 0).Send.closed = true) ∧
    run contentOnly init
        ([Request.Register 0, .Join 0 "a", .Join 0 "b"] ++
          List.replicate 257 (.Broadcast ⟨"message", "a", "x", "u"⟩) ++
          [.Broadcast ⟨"message", "b", "x", "u"⟩]) = .error "send on closed channel" ∧
    run contentOnly init
        ([Request.Register 0, .Join 0 "a", .Join 0 "b"] ++
          List.replicate 257 (.Broadcast ⟨"message", "a", "x", "u"⟩) ++
          [.Unregister 0]) = .error "close of closed channel" :=
  ⟨⟨_, rfl, by decide, by decide, rfl⟩, rfl, rfl⟩

set_option maxRecDepth 100000 in
/-- C7 (as stated, refuted): client 0 joined a and b and was evicted from b by the 257th
broadcast to b, so it is still a member of a with a closed queue. Client 1 joined c,
received 256 broadcasts, and joined a: it is a member of a whose open queue is at
capacity. The broadcast to a panics at client 0 and evicts nobody. -/
theorem C7_broadcast_panics_on_closed_member :
    ∃ st, run contentOnly init
        ([Request.Join 0 "a", .Join 0 "b"] ++
          List.replicate 257 (.Broadcast ⟨"message", "b", "x", "u"⟩) ++
          [.Join 1 "c"] ++ List.replicate 256 (.Broadcast ⟨"message", "c", "x", "u"⟩) ++
          [.Join 1 "a"]) = .ok st ∧
      Member st 1 "a" ∧ isOpen st 1 ∧ ¬ hasRoom st 1 ∧ Member st 0 "a" ∧ ¬ isOpen st 0 ∧
      step contentOnly st (.Broadcast ⟨"message", "a", "x", "u"⟩) =
        .error "send on closed channel" :=
  ⟨_, rfl, by decide, by decide, by decide, by decide, by decide, rfl⟩

/-- C7 (as amended): in a state where every member of the channel `C` of the message has
an open `Send` queue, processing `Broadcast` completes, and every member `D` of `C`
whose queue is at capacity is removed from `cm.Clients[C]`, loses `C` from
`D.Channels` and has `D.Send` closed with its contents unchanged, while every member of
`C` whose queue is not full stays a member, keeps its queue open and gets the payload
exactly once, at the tail of the queue. -/
theorem C7_eviction_on_backpressure (marshal : Message → Except String Payload)
    (st : BrokerState) (m : Message) (data : Payload) (hm : marshal m = .ok data)
    (hnodup : ((st.Clients m.Channel).getD []).Nodup)
    (hopen : ∀ c ∈ (st.Clients m.Channel).getD [], isOpen st c) :
    ∃ st1, step marshal st (.Broadcast m) = .ok st1 ∧
      (∀ D, Member st D m.Channel → ¬ hasRoom st D →
        ¬ Member st1 D m.Channel ∧ ¬ Joined st1 D m.Channel ∧
        (st1.clients D).Send.closed = true ∧
        (st1.clients D).Send.buf = (st.clients D).Send.buf) ∧
      (∀ E, Member st E m.Channel → hasRoom st E →
        Member st1 E m.Channel ∧ (st1.clients E).Send.closed = false ∧
        (st1.clients E).Send.buf = (st.clients E).Send.buf ++ [data]) := by
  obtain ⟨st1, hfan, _, h2, h3, h4, _⟩ :=
    fanOut_open m.Channel data ((st.Clients m.Channel).getD []) st hnodup hopen
  refine ⟨st1, ?_, ?_, ?_⟩
  · simp only [step, broadcast]
    rw [hm]
    exact hfan
  · intro D hD hfull
    refine ⟨?_, ?_, ?_, ?_⟩
    · rw [h4]
      exact fun hh => hh.2 ⟨rfl, hD, hfull⟩
    · unfold Joined
      rw [h3 D hD hfull]
      simp [mem_keyDelete]
    · rw [h3 D hD hfull]
    · rw [h3 D hD hfull]
  · intro E hE hroom
    refine ⟨?_, ?_, ?_⟩
    · rw [h4]
      exact ⟨hE, fun hh => hh.2.2 hroom⟩
    · rw [h2 E hE hroom]
      exact hopen E hE
    · rw [h2 E hE hroom]

set_option maxRecDepth 100000 in
/-- C7 witness: client 0 joined general with an empty queue; client 1 received 256
broadcasts on c before joining general, so its queue is at capacity. -/
theorem C7_eviction_on_backpressure_witness :
    ∃ st, run contentOnly init
        ([Request.Join 0 "general", .Join 1 "c"] ++
          List.replicate 256 (.Broadcast ⟨"message", "c", "x", "u"⟩) ++
          [.Join 1 "general"]) = .ok st ∧
      ∃ st1, step contentOnly st (.Broadcast ⟨"message", "general", "hi", "u"⟩) = .ok st1 ∧
        (∀ D, Member st D "general" → ¬ hasRoom st D →
          ¬ Member st1 D "general" ∧ ¬ Joined st1 D "general" ∧
          (st1.clients D).Send.closed = true ∧
          (st1.clients D).Send.buf = (st.clients D).Send.buf) ∧
        (∀ E, Member st E "general" → hasRoom st E →
          Member st1 E "general" ∧ (st1.clients E).Send.closed = false ∧
          (st1.clients E).Send.buf = (st.clients E).Send.buf ++ ["hi"]) :=
  ⟨_, rfl, C7_eviction_on_backpressure contentOnly _ ⟨"message", "general", "hi", "u"⟩ "hi" rfl
    (by decide) (by decide)⟩

/-- C8: when every member of the channel of the message `m` has an open queue with
room, processing `Broadcast` of `m` completes and appends exactly one payload, the
encoding of `m` as submitted, at the tail of the queue of each member, leaves the
queue of every other client unchanged, and leaves the member sets and every
`Channels` map unchanged. -/
theorem C8_broadcast_fan_out (marshal : Message → Except String Payload)
    (st : BrokerState) (m : Message) (data : Payload) (hm : marshal m = .ok data)
    (hnodup : ((st.Clients m.Channel).getD []).Nodup)
    (hopen : ∀ c ∈ (st.Clients m.Channel).getD [], isOpen st c ∧ hasRoom st c) :
    ∃ st1, step marshal st (.Broadcast m) = .ok st1 ∧
      (∀ c, Member st c m.Channel →
        (st1.clients c).Send =
          { (st.clients c).Send with buf := (st.clients c).Send.buf ++ [data] }) ∧
      (∀ c, ¬ Member st c m.Channel → (st1.clients c).Send = (st.clients c).Send) ∧
      st1.Clients = st.Clients ∧
      (∀ c, (st1.clients c).Channels = (st.clients c).Channels) := by
  obtain ⟨st1, hfan, h1, h2, _, _, h5⟩ :=
    fanOut_open m.Channel data ((st.Clients m.Channel).getD []) st hnodup
      (fun c hc => (hopen c hc).1)
  refine ⟨st1, ?_, ?_, ?_, h5 (fun c hc => (hopen c hc).2), ?_⟩
  · simp only [step, broadcast]
    rw [hm]
    exact hfan
  · intro c hc
    rw [h2 c hc (hopen c hc).2]
  · intro c hc
    rw [h1 c hc]
  · intro c
    by_cases hc : c ∈ (st.Clients m.Channel).getD []
    · rw [h2 c hc (hopen c hc).2]
    · rw [h1 c hc]

/-- C8 witness: three clients joined to general with empty queues. -/
theorem C8_broadcast_fan_out_witness :
    ∃ st, run contentOnly init [.Join 0 "general", .Join 1 "general", .Join 2 "general"] =
        .ok st ∧
      ∃ st1, step contentOnly st (.Broadcast ⟨"message", "general", "hi", "u"⟩) = .ok st1 ∧
        (∀ c, Member st c "general" →
          (st1.clients c).Send =
            { (st.clients c).Send with buf := (st.clients c).Send.buf ++ ["hi"] }) ∧
        (∀ c, ¬ Member st c "general" → (st1.clients c).Send = (st.clients c).Send) ∧
        st1.Clients = st.Clients ∧
        (∀ c, (st1.clients c).Channels = (st.clients c).Channels) :=
  ⟨_, rfl, C8_broadcast_fan_out contentOnly _ ⟨"message", "general", "hi", "u"⟩ "hi" rfl
    (by decide) (by decide)⟩

end Broker

namespace Snowflake

/-! ## Construction, failed calls and clock reads -/

/-- C11: `NewEnhancedSnowflake` returns an error exactly when `dataCenterID` or `workerID`
lies outside `[0,255]`, and otherwise (and only then) returns the generator holding
these two ids with sequence 0 and `lastTimestamp` -1. -/
theorem C11_constructor_contract (dc w : Int) :
    ((∃ e, NewEnhancedSnowflake dc w = .error e) ↔ (dc < 0 ∨ 255 < dc ∨ w < 0 ∨ 255 < w)) ∧
    (NewEnhancedSnowflake dc w = .ok ⟨-1, dc, w, 0⟩ ↔
      (0 ≤ dc ∧ dc ≤ 255 ∧ 0 ≤ w ∧ w ≤ 255)) := by
  obtain ⟨hw, hd, _⟩ := consts_eval
  unfold NewEnhancedSnowflake
  rw [hw, hd]
  by_cases h1 : dc < 0 ∨ dc > 255
  · rw [if_pos h1]
    constructor
    · constructor
      · intro _
        omega
      · intro _
        exact ⟨_, rfl⟩
    · constructor
      · intro h
        cases h
      · intro h
        omega
  · rw [if_neg h1]
    by_cases h2 : w < 0 ∨ w > 255
    · rw [if_pos h2]
      constructor
      · constructor
        · intro _
          omega
        · intro _
          exact ⟨_, rfl⟩
      · constructor
        · intro h
          cases h
        · intro h
          omega
    · rw [if_neg h2]
      constructor
      · constructor
        · rintro ⟨e, he⟩
          cases he
        · intro h
          omega
      · constructor
        · intro _
          omega
        · intro _
          rfl

/-- C20: whenever `NextID` returns an error, the generator afterwards is the generator
before the call, field by field, and the returned identifier is 0. -/
theorem C20_failed_call_is_atomic (s : EnhancedSnowflake) (clock : List Int)
    (r : Ret) (s1 : EnhancedSnowflake) (rest : List Int)
    (h : NextID s clock = some (r, s1, rest)) (herr : r.err ≠ none) :
    s1.lastTimestamp = s.lastTimestamp ∧ s1.sequence = s.sequence ∧
      s1.dataCenterID = s.dataCenterID ∧ s1.workerID = s.workerID ∧ r.id = 0 := by
  obtain ⟨_, _, _, hcase⟩ := NextID_some s clock r s1 rest h
  rcases hcase with ⟨_, hid, rfl, _⟩ | ⟨he, _⟩
  · exact ⟨rfl, rfl, rfl, rfl, hid⟩
  · exact absurd he herr

/-- C20 witness: a backward jump of 50 ms on a generator that has issued three
identifiers in its current millisecond. -/
theorem C20_failed_call_is_atomic_witness :
    (⟨twepoch + 100, 1, 1, 2⟩ : EnhancedSnowflake).lastTimestamp =
        (⟨twepoch + 100, 1, 1, 2⟩ : EnhancedSnowflake).lastTimestamp ∧
      (⟨twepoch + 100, 1, 1, 2⟩ : EnhancedSnowflake).sequence =
        (⟨twepoch + 100, 1, 1, 2⟩ : EnhancedSnowflake).sequence ∧
      (⟨twepoch + 100, 1, 1, 2⟩ : EnhancedSnowflake).dataCenterID =
        (⟨twepoch + 100, 1, 1, 2⟩ : EnhancedSnowflake).dataCenterID ∧
      (⟨twepoch + 100, 1, 1, 2⟩ : EnhancedSnowflake).workerID =
        (⟨twepoch + 100, 1, 1, 2⟩ : EnhancedSnowflake).workerID ∧
      (⟨0, some "clock moved backwards. Refusing to generate id"⟩ : Ret).id = 0 :=
  C20_failed_call_is_atomic ⟨twepoch + 100, 1, 1, 2⟩ [twepoch + 50, twepoch + 101]
    ⟨0, some "clock moved backwards. Refusing to generate id"⟩ ⟨twepoch + 100, 1, 1, 2⟩
    [twepoch + 101] (by decide) (by decide)

/-- The readings taken by a returning `issueID`: none, unless the sequence was
exhausted within the millisecond of `lastTimestamp`. -/
theorem issueID_reads (s : EnhancedSnowflake) (ts : Int) (clock : List Int)
    (r : Ret) (s1 : EnhancedSnowflake) (rest : List Int)
    (h : issueID s ts clock = some (r, s1, rest)) :
    ∃ spun, clock = spun ++ rest ∧
      (spun = [] ∨
        (s.lastTimestamp = ts ∧ and64 (add64 s.sequence 1) maxSequence = 0 ∧
          s.lastTimestamp < s1.lastTimestamp)) := by
  unfold issueID at h
  split at h
  · rename_i heq
    simp only at h
    split at h
    · rename_i hz
      split at h
      · cases h
      · rename_i t1 rest1 hspin
        simp only [Option.some.injEq, Prod.mk.injEq] at h
        obtain ⟨rfl, rfl, rfl⟩ := h
        obtain ⟨hlt, used, hu, _⟩ := spinUntilNext_some _ _ _ _ _ hspin
        exact ⟨used, hu, Or.inr ⟨heq, hz, hlt⟩⟩
    · simp only [Option.some.injEq, Prod.mk.injEq] at h
      obtain ⟨rfl, rfl, rfl⟩ := h
      exact ⟨[], rfl, Or.inl rfl⟩
  · simp only [Option.some.injEq, Prod.mk.injEq] at h
    obtain ⟨rfl, rfl, rfl⟩ := h
    exact ⟨[], rfl, Or.inl rfl⟩

/-- The readings taken by a returning `NextID`: one or two before the sequence update,
then those of the spin, if the sequence was exhausted. -/
theorem NextID_reads (s : EnhancedSnowflake) (clock : List Int)
    (r : Ret) (s1 : EnhancedSnowflake) (rest : List Int)
    (h : NextID s clock = some (r, s1, rest)) :
    ∃ pre spun, clock = pre ++ spun ++ rest ∧ 1 ≤ pre.length ∧ pre.length ≤ 2 ∧
      (spun = [] ∨
        (and64 (add64 s.sequence 1) maxSequence = 0 ∧ r.err = none ∧
          s.lastTimestamp < s1.lastTimestamp)) := by
  have key : ∀ (ts : Int) (cl : List Int), issueID s ts cl = some (r, s1, rest) →
      ∃ spun, cl = spun ++ rest ∧
        (spun = [] ∨
          (and64 (add64 s.sequence 1) maxSequence = 0 ∧ r.err = none ∧
            s.lastTimestamp < s1.lastTimestamp)) := by
    intro ts cl hi
    obtain ⟨spun, hu, hc⟩ := issueID_reads s ts cl r s1 rest hi
    obtain ⟨_, _, he, _⟩ := issueID_some s ts cl r s1 rest hi
    refine ⟨spun, hu, ?_⟩
    rcases hc with hc | ⟨_, b, c⟩
    · exact Or.inl hc
    · exact Or.inr ⟨b, he, c⟩
  cases clock with
  | nil => simp [NextID] at h
  | cons t clock =>
    simp only [NextID] at h
    split at h
    · split at h
      · cases clock with
        | nil => simp at h
        | cons t2 clock2 =>
          simp only at h
          split at h
          · simp only [Option.some.injEq, Prod.mk.injEq] at h
            obtain ⟨rfl, rfl, rfl⟩ := h
            exact ⟨[t, t2], [], by simp, by simp, by simp, Or.inl rfl⟩
          · obtain ⟨spun, hu, hc⟩ := key t2 clock2 h
            exact ⟨[t, t2], spun, by simp [hu], by simp, by simp, hc⟩
      · simp only [Option.some.injEq, Prod.mk.injEq] at h
        obtain ⟨rfl, rfl, rfl⟩ := h
        exact ⟨[t], [], by simp, by simp, by simp, Or.inl rfl⟩
    · obtain ⟨spun, hu, hc⟩ := key t clock h
      exact ⟨[t], spun, by simp [hu], by simp, by simp, hc⟩

/-- C19: for every generator state and every sequence of readings that contains a
reading strictly greater than `lastTimestamp`, `NextID` returns, having taken finitely
many readings: one or two (`pre`) outside the spin, followed by the readings of the
spin (`spun`), which are taken only when the sequence was exhausted. -/
theorem C19_never_blocks_indefinitely (s : EnhancedSnowflake) (clock : List Int)
    (h : ∃ t ∈ clock, s.lastTimestamp < t) :
    ∃ r s1 rest, NextID s clock = some (r, s1, rest) ∧
      ∃ pre spun, clock = pre ++ spun ++ rest ∧ 1 ≤ pre.length ∧ pre.length ≤ 2 ∧
        (spun = [] ∨
          (and64 (add64 s.sequence 1) maxSequence = 0 ∧ r.err = none ∧
            s.lastTimestamp < s1.lastTimestamp)) := by
  have hsome := NextID_isSome s clock h
  cases hcall : NextID s clock with
  | none => rw [hcall] at hsome; cases hsome
  | some q =>
    obtain ⟨r, s1, rest⟩ := q
    exact ⟨r, s1, rest, rfl, NextID_reads s clock r s1 rest hcall⟩

/-- C19 witness: sequence exhausted, two readings at `lastTimestamp`, then a later one. -/
theorem C19_never_blocks_indefinitely_witness :
    ∃ r s1 rest,
      NextID ⟨twepoch + 10, 1, 1, 127⟩ [twepoch + 10, twepoch + 10, twepoch + 11, twepoch + 12] =
        some (r, s1, rest) ∧
      ∃ pre spun,
        [twepoch + 10, twepoch + 10, twepoch + 11, twepoch + 12] = pre ++ spun ++ rest ∧
        1 ≤ pre.length ∧ pre.length ≤ 2 ∧
        (spun = [] ∨
          (and64 (add64 (⟨twepoch + 10, 1, 1, 127⟩ : EnhancedSnowflake).sequence 1) maxSequence = 0 ∧
            r.err = none ∧
            (⟨twepoch + 10, 1, 1, 127⟩ : EnhancedSnowflake).lastTimestamp < s1.lastTimestamp)) :=
  C19_never_blocks_indefinitely ⟨twepoch + 10, 1, 1, 127⟩
    [twepoch + 10, twepoch + 10, twepoch + 11, twepoch + 12] ⟨twepoch + 11, by decide, by decide⟩

/-! ## The bit pattern of an identifier -/

theorem toU64_lt (x : Int) : toU64 x < 18446744073709551616 := by
  unfold toU64
  omega

theorem toU64_ofU64 (n : Nat) : toU64 (ofU64 n) = n % 18446744073709551616 := by
  unfold toU64 ofU64
  split <;> omega

theorem toU64_wrap64 (x : Int) : toU64 (wrap64 x) = toU64 x := by
  unfold wrap64
  rw [toU64_ofU64]
  have := toU64_lt x
  omega

theorem lor_disjoint (a b k : Nat) (hb : b < 2 ^ k) : a * 2 ^ k ||| b = a * 2 ^ k + b := by
  have := Nat.mul_add_lt_is_or hb a
  rw [Nat.mul_comm] at this
  exact this.symm

/-- The 64-bit pattern of the identifier expression, for an offset of at most 41 bits:
the four fields side by side, whatever the sign of the `int64`. -/
theorem toU64_composeID (t dc w q : Int)
    (ht0 : twepoch ≤ t) (ht1 : t - twepoch < 2199023255552)
    (hdc0 : 0 ≤ dc) (hdc1 : dc ≤ 255) (hw0 : 0 ≤ w) (hw1 : w ≤ 255)
    (hq0 : 0 ≤ q) (hq1 : q ≤ 127) :
    ((toU64 (composeID t dc w q) : Nat) : Int) =
      (t - twepoch) * 8388608 + dc * 32768 + w * 128 + q := by
  obtain ⟨d, hd⟩ := Int.eq_ofNat_of_zero_le (show 0 ≤ t - twepoch by omega)
  obtain ⟨dc, rfl⟩ := Int.eq_ofNat_of_zero_le hdc0
  obtain ⟨w, rfl⟩ := Int.eq_ofNat_of_zero_le hw0
  obtain ⟨q, rfl⟩ := Int.eq_ofNat_of_zero_le hq0
  have e1 : toU64 (shl64 (sub64 t twepoch) timeShift) = d * 2 ^ 23 := by
    have hs : sub64 t twepoch = (d : Int) := by
      unfold sub64
      rw [wrap64_of_range _ (by omega) (by omega), hd]
    have : timeShift.toNat = 23 := by decide
    unfold shl64
    rw [hs, this, toU64_wrap64]
    unfold toU64
    omega
  have e2 : toU64 (shl64 (dc : Int) dataCenterIDShift) = dc * 2 ^ 15 := by
    have : dataCenterIDShift.toNat = 15 := by decide
    unfold shl64
    rw [this, toU64_wrap64]
    unfold toU64
    omega
  have e3 : toU64 (shl64 (w : Int) workerIDShift) = w * 2 ^ 7 := by
    have : workerIDShift.toNat = 7 := by decide
    unfold shl64
    rw [this, toU64_wrap64]
    unfold toU64
    omega
  have e4 : toU64 (q : Int) = q := toU64_natCast q (by omega)
  have s1 : d * 2 ^ 23 + dc * 2 ^ 15 = (d * 2 ^ 8 + dc) * 2 ^ 15 := by ring
  have s2 : (d * 2 ^ 8 + dc) * 2 ^ 15 + w * 2 ^ 7 = (d * 2 ^ 16 + dc * 2 ^ 8 + w) * 2 ^ 7 := by
    ring
  have o1 : d * 2 ^ 23 ||| dc * 2 ^ 15 = d * 2 ^ 23 + dc * 2 ^ 15 :=
    lor_disjoint d (dc * 2 ^ 15) 23 (by omega)
  have o2 : (d * 2 ^ 8 + dc) * 2 ^ 15 ||| w * 2 ^ 7 = (d * 2 ^ 8 + dc) * 2 ^ 15 + w * 2 ^ 7 :=
    lor_disjoint (d * 2 ^ 8 + dc) (w * 2 ^ 7) 15 (by omega)
  have o3 : (d * 2 ^ 16 + dc * 2 ^ 8 + w) * 2 ^ 7 ||| q = (d * 2 ^ 16 + dc * 2 ^ 8 + w) * 2 ^ 7 + q :=
    lor_disjoint (d * 2 ^ 16 + dc * 2 ^ 8 + w) q 7 (by omega)
  unfold composeID or64
  rw [toU64_ofU64, toU64_ofU64, toU64_ofU64, e1, e2, e3, e4, o1,
    Nat.mod_eq_of_lt (show d * 2 ^ 23 + dc * 2 ^ 15 < 18446744073709551616 by omega), s1, o2,
    Nat.mod_eq_of_lt (show (d * 2 ^ 8 + dc) * 2 ^ 15 + w * 2 ^ 7 < 18446744073709551616 by omega),
    s2, o3,
    Nat.mod_eq_of_lt
      (show (d * 2 ^ 16 + dc * 2 ^ 8 + w) * 2 ^ 7 + q < 18446744073709551616 by omega), hd]
  push_cast
  ring

/-- Injectivity of the identifier expression on tuples with fields in range. -/
theorem composeID_injective (t dc w q t2 dc2 w2 q2 : Int)
    (ht0 : twepoch ≤ t) (ht1 : t - twepoch < 2199023255552)
    (hdc0 : 0 ≤ dc) (hdc1 : dc ≤ 255) (hw0 : 0 ≤ w) (hw1 : w ≤ 255)
    (hq0 : 0 ≤ q) (hq1 : q ≤ 127)
    (ht2 : twepoch ≤ t2) (ht3 : t2 - twepoch < 2199023255552)
    (hdc2 : 0 ≤ dc2) (hdc3 : dc2 ≤ 255) (hw2 : 0 ≤ w2) (hw3 : w2 ≤ 255)
    (hq2 : 0 ≤ q2) (hq3 : q2 ≤ 127)
    (h : composeID t dc w q = composeID t2 dc2 w2 q2) :
    t = t2 ∧ dc = dc2 ∧ w = w2 ∧ q = q2 := by
  have a := toU64_composeID t dc w q ht0 ht1 hdc0 hdc1 hw0 hw1 hq0 hq1
  have b := toU64_composeID t2 dc2 w2 q2 ht2 ht3 hdc2 hdc3 hw2 hw3 hq2 hq3
  rw [h] at a
  rw [a] at b
  omega

/-- C17: the identifier expression of `NextID` is injective on tuples (timestamp,
datacenter, worker, sequence) with timestamp offset in `[0, 2^41)`, datacenter and
worker in `[0,255]` and sequence in `[0,127]`; in particular two generators
configured with different (datacenter, worker) pairs never issue the same
identifier from readings in that range. -/
theorem C17_composition_is_injective :
    (∀ (t dc w q t2 dc2 w2 q2 : Int),
      (0 ≤ t - twepoch ∧ t - twepoch < 2199023255552) → (0 ≤ dc ∧ dc ≤ 255) →
      (0 ≤ w ∧ w ≤ 255) → (0 ≤ q ∧ q ≤ 127) →
      (0 ≤ t2 - twepoch ∧ t2 - twepoch < 2199023255552) → (0 ≤ dc2 ∧ dc2 ≤ 255) →
      (0 ≤ w2 ∧ w2 ≤ 255) → (0 ≤ q2 ∧ q2 ≤ 127) →
      composeID t dc w q = composeID t2 dc2 w2 q2 →
      t = t2 ∧ dc = dc2 ∧ w = w2 ∧ q = q2) ∧
    (∀ (g g2 : EnhancedSnowflake) (clock clock2 : List Int)
      (r r2 : Ret) (s s2 : EnhancedSnowflake) (rest rest2 : List Int),
      (0 ≤ g.dataCenterID ∧ g.dataCenterID ≤ 255 ∧ 0 ≤ g.workerID ∧ g.workerID ≤ 255) →
      (0 ≤ g2.dataCenterID ∧ g2.dataCenterID ≤ 255 ∧ 0 ≤ g2.workerID ∧ g2.workerID ≤ 255) →
      (∀ t ∈ clock, 0 ≤ t - twepoch ∧ t - twepoch < 2199023255552) →
      (∀ t ∈ clock2, 0 ≤ t - twepoch ∧ t - twepoch < 2199023255552) →
      NextID g clock = some (r, s, rest) → NextID g2 clock2 = some (r2, s2, rest2) →
      r.err = none → r2.err = none →
      (g.dataCenterID ≠ g2.dataCenterID ∨ g.workerID ≠ g2.workerID) →
      r.id ≠ r2.id) := by
  constructor
  · intro t dc w q t2 dc2 w2 q2 ht hdc hw hq ht2 hdc2 hw2 hq2 h
    exact composeID_injective t dc w q t2 dc2 w2 q2 (by omega) ht.2 hdc.1 hdc.2 hw.1 hw.2
      hq.1 hq.2 (by omega) ht2.2 hdc2.1 hdc2.2 hw2.1 hw2.2 hq2.1 hq2.2 h
  · intro g g2 clock clock2 r r2 s s2 rest rest2 hg hg2 hc hc2 h h2 he he2 hne hid
    have shape : ∀ (g : EnhancedSnowflake) (clock : List Int) (r : Ret)
        (s : EnhancedSnowflake) (rest : List Int),
        (∀ t ∈ clock, 0 ≤ t - twepoch ∧ t - twepoch < 2199023255552) →
        NextID g clock = some (r, s, rest) → r.err = none →
        r.id = composeID s.lastTimestamp g.dataCenterID g.workerID s.sequence ∧
          (0 ≤ s.lastTimestamp - twepoch ∧ s.lastTimestamp - twepoch < 2199023255552) ∧
          (0 ≤ s.sequence ∧ s.sequence ≤ 127) := by
      intro g clock r s rest hc h he
      obtain ⟨used, hu, _, hcase⟩ := NextID_some g clock r s rest h
      rcases hcase with ⟨hx, _⟩ | ⟨_, hid, _, _, hm, hcase⟩
      · exact absurd he hx
      · refine ⟨hid, hc s.lastTimestamp (by rw [hu]; simp [hm]), ?_⟩
        rcases hcase with ⟨_, b, _⟩ | ⟨_, b⟩
        · rw [b]
          exact and64_maxSequence_range _
        · omega
    obtain ⟨i1, t1, q1⟩ := shape g clock r s rest hc h he
    obtain ⟨i2, t2, q2⟩ := shape g2 clock2 r2 s2 rest2 hc2 h2 he2
    rw [i1, i2] at hid
    have := composeID_injective _ _ _ _ _ _ _ _ (by omega) t1.2 hg.1 hg.2.1 hg.2.2.1 hg.2.2.2
      q1.1 q1.2 (by omega) t2.2 hg2.1 hg2.2.1 hg2.2.2.1 hg2.2.2.2 q2.1 q2.2 hid
    rcases hne with hne | hne
    · exact hne this.2.1
    · exact hne this.2.2.1

/-- C17 witness: a tuple at the top of the 41-bit range, and two generators that differ
in the worker id only, asked in the same millisecond. -/
theorem C17_composition_is_injective_witness :
    (twepoch + 2199023255551 = twepoch + 2199023255551 ∧ (255 : Int) = 255 ∧
      (254 : Int) = 254 ∧ (127 : Int) = 127) ∧
    (⟨32896, none⟩ : Ret).id ≠ (⟨33024, none⟩ : Ret).id :=
  ⟨C17_composition_is_injective.1 (twepoch + 2199023255551) 255 254 127
      (twepoch + 2199023255551) 255 254 127 (by decide) (by decide) (by decide) (by decide)
      (by decide) (by decide) (by decide) (by decide) rfl,
    C17_composition_is_injective.2 ⟨-1, 1, 1, 0⟩ ⟨-1, 1, 2, 0⟩ [twepoch] [twepoch]
      ⟨32896, none⟩ ⟨33024, none⟩ ⟨twepoch, 1, 1, 0⟩ ⟨twepoch, 1, 2, 0⟩ [] []
      (by decide) (by decide) (by decide) (by decide) (by decide) (by decide) rfl rfl
      (by decide)⟩

/-! ## Sequence numbers -/

theorem spinUntilNext_done (last t : Int) (clock : List Int) (h : last < t) :
    spinUntilNext last t clock = some (t, clock) := by
  cases clock with
  | nil => simp [spinUntilNext, not_le.mpr h]
  | cons u clock => simp [spinUntilNext, not_le.mpr h]

/-- The spin skips the readings that are not above `last` and stops at the first one
that is. -/
theorem spinUntilNext_skip (last : Int) :
    ∀ (skipped : List Int) (ts t3 : Int) (rest : List Int), ts ≤ last →
      (∀ u ∈ skipped, u ≤ last) → last < t3 →
      spinUntilNext last ts (skipped ++ t3 :: rest) = some (t3, rest) := by
  intro skipped
  induction skipped with
  | nil =>
    intro ts t3 rest hts _ h3
    simp only [List.nil_append, spinUntilNext, hts, if_true]
    exact spinUntilNext_done last t3 rest h3
  | cons u skipped ih =>
    intro ts t3 rest hts hall h3
    simp only [List.cons_append, spinUntilNext, hts, if_true]
    exact ih u t3 rest (hall u (by simp)) (fun v hv => hall v (by simp [hv])) h3

/-- A strictly increasing list of integers between `a` and `b` has at most
`b + 1 - a` entries. -/
theorem length_le_of_increasing_bounded :
    ∀ (l : List Int) (a b : Int), l.Pairwise (fun x y => x < y) →
      (∀ x ∈ l, a ≤ x ∧ x ≤ b) → l.length ≤ (b + 1 - a).toNat := by
  intro l
  induction l with
  | nil =>
    intro a b _ _
    simp
  | cons x l ih =>
    intro a b hp hb
    rw [List.pairwise_cons] at hp
    have hx := hb x (by simp)
    have := ih (x + 1) b hp.2 (fun y hy => ⟨by have := hp.1 y hy; omega, (hb y (by simp [hy])).2⟩)
    simp only [List.length_cons]
    omega

/-- Along successive calls the pairs (stored timestamp, stored sequence) of the calls
that issued an identifier increase strictly in lexicographic order, with sequences in
`[0,127]`. -/
theorem callLog_lex (g : EnhancedSnowflake) (clock : List Int)
    (hg0 : 0 ≤ g.sequence) (hg1 : g.sequence ≤ 127) :
    ∀ (n : Nat) (log : List (Ret × EnhancedSnowflake)) (s : EnhancedSnowflake) (rest : List Int),
      callLog n g clock = some (log, s, rest) →
      (0 ≤ s.sequence ∧ s.sequence ≤ 127) ∧
      (∀ e ∈ log, e.1.err = none →
        (0 ≤ e.2.sequence ∧ e.2.sequence ≤ 127) ∧
        (e.2.lastTimestamp < s.lastTimestamp ∨
          (e.2.lastTimestamp = s.lastTimestamp ∧ e.2.sequence ≤ s.sequence))) ∧
      log.Pairwise (fun a b => a.1.err = none → b.1.err = none →
        a.2.lastTimestamp < b.2.lastTimestamp ∨
          (a.2.lastTimestamp = b.2.lastTimestamp ∧ a.2.sequence < b.2.sequence)) := by
  intro n
  induction n with
  | zero =>
    intro log s rest h
    simp only [callLog, Option.some.injEq, Prod.mk.injEq] at h
    obtain ⟨rfl, rfl, rfl⟩ := h
    exact ⟨⟨hg0, hg1⟩, by simp, List.Pairwise.nil⟩
  | succ n ih =>
    intro log s rest h
    simp only [callLog] at h
    split at h
    · cases h
    · rename_i log0 s0 rest0 h0
      split at h
      · cases h
      · rename_i r s2 rest2 hcall
        simp only [Option.some.injEq, Prod.mk.injEq] at h
        obtain ⟨rfl, rfl, rfl⟩ := h
        obtain ⟨⟨q0, q1⟩, hle, hp⟩ := ih log0 s0 rest0 h0
        obtain ⟨_, _, _, hcase⟩ := NextID_some s0 rest0 r s2 rest2 hcall
        have hnext := next_sequence s0.sequence q0 q1
        have hstep : (r.err ≠ none ∧ s2 = s0) ∨
            (r.err = none ∧ (0 ≤ s2.sequence ∧ s2.sequence ≤ 127) ∧
              (s0.lastTimestamp < s2.lastTimestamp ∨
                (s0.lastTimestamp = s2.lastTimestamp ∧ s0.sequence < s2.sequence))) := by
          rcases hcase with ⟨he, _, hs, _⟩ | ⟨he, _, _, _, _, hc⟩
          · exact Or.inl ⟨he, hs⟩
          · right
            refine ⟨he, ?_⟩
            rcases hc with ⟨a, b, c⟩ | ⟨a, b⟩
            · rw [hnext] at b
              split at b
              · exact absurd b c
              · omega
            · omega
        rcases hstep with ⟨he, rfl⟩ | ⟨he, hq, hlt⟩
        · refine ⟨⟨q0, q1⟩, ?_, ?_⟩
          · intro e hmem hee
            rcases List.mem_append.mp hmem with hmem | hmem
            · exact hle e hmem hee
            · rw [List.mem_singleton] at hmem
              subst hmem
              exact absurd hee he
          · rw [List.pairwise_append]
            refine ⟨hp, List.pairwise_singleton _ _, ?_⟩
            intro a _ b hb
            rw [List.mem_singleton] at hb
            subst hb
            intro _ hbe
            exact absurd hbe he
        · refine ⟨hq, ?_, ?_⟩
          · intro e hmem hee
            rcases List.mem_append.mp hmem with hmem | hmem
            · obtain ⟨hr, hl⟩ := hle e hmem hee
              refine ⟨hr, ?_⟩
              omega
            · rw [List.mem_singleton] at hmem
              subst hmem
              exact ⟨hq, Or.inr ⟨rfl, le_refl _⟩⟩
          · rw [List.pairwise_append]
            refine ⟨hp, List.pairwise_singleton _ _, ?_⟩
            intro a ha b hb
            rw [List.mem_singleton] at hb
            subst hb
            intro hae _
            obtain ⟨_, hl⟩ := hle a ha hae
            simp only
            omega

/-- C18: for a generator whose stored sequence is in `[0,127]`. The reading `t` accepted
by a call is the first reading, or the second one after a tolerated rollback, and the
call then continues as `issueID`. (i) If `t > lastTimestamp` the identifier carries `t`
and sequence 0. (ii) If `t = lastTimestamp` and the sequence is below 127 the identifier
carries `t` and the sequence plus 1. (iii) If `t = lastTimestamp` and the sequence is 127
the identifier carries sequence 0 and the first later reading above `lastTimestamp`.
After every successful call the stored sequence is in `[0,127]`, and among any number
of successive calls at most 128 issue an identifier with the same stored timestamp. -/
theorem C18_sequence_discipline (s : EnhancedSnowflake)
    (hq0 : 0 ≤ s.sequence) (hq1 : s.sequence ≤ 127) :
    (∀ (t : Int) (clock : List Int), s.lastTimestamp ≤ t →
      NextID s (t :: clock) = issueID s t clock) ∧
    (∀ (t0 t : Int) (clock : List Int), IsMillis s.lastTimestamp → IsMillis t0 →
      t0 < s.lastTimestamp → s.lastTimestamp - t0 ≤ 5 → s.lastTimestamp ≤ t →
      NextID s (t0 :: t :: clock) = issueID s t clock) ∧
    (∀ (t : Int) (clock : List Int), s.lastTimestamp < t →
      issueID s t clock =
        some (⟨composeID t s.dataCenterID s.workerID 0, none⟩,
              { s with sequence := 0, lastTimestamp := t }, clock)) ∧
    (∀ (t : Int) (clock : List Int), s.lastTimestamp = t → s.sequence < 127 →
      issueID s t clock =
        some (⟨composeID t s.dataCenterID s.workerID (s.sequence + 1), none⟩,
              { s with sequence := s.sequence + 1, lastTimestamp := t }, clock)) ∧
    (∀ (t : Int) (skipped : List Int) (t3 : Int) (rest : List Int),
      s.lastTimestamp = t → s.sequence = 127 →
      (∀ u ∈ skipped, u ≤ s.lastTimestamp) → s.lastTimestamp < t3 →
      issueID s t (skipped ++ t3 :: rest) =
        some (⟨composeID t3 s.dataCenterID s.workerID 0, none⟩,
              { s with sequence := 0, lastTimestamp := t3 }, rest)) ∧
    (∀ (clock : List Int) (r : Ret) (s1 : EnhancedSnowflake) (rest : List Int),
      NextID s clock = some (r, s1, rest) → r.err = none →
      0 ≤ s1.sequence ∧ s1.sequence ≤ 127) ∧
    (∀ (n : Nat) (clock : List Int) (log : List (Ret × EnhancedSnowflake))
      (s1 : EnhancedSnowflake) (rest : List Int) (T : Int),
      callLog n s clock = some (log, s1, rest) →
      (log.filter (fun e => decide (e.1.err = none ∧ e.2.lastTimestamp = T))).length ≤ 128) := by
  refine ⟨?_, ?_, ?_, ?_, ?_, ?_, ?_⟩
  · intro t clock h
    exact NextID_no_rollback s t clock h
  · intro t0 t clock hs ht0 hlt h5 hge
    obtain ⟨hs0, hs1⟩ := hs
    obtain ⟨ht00, ht01⟩ := ht0
    have hoff : sub64 s.lastTimestamp t0 = s.lastTimestamp - t0 := by
      unfold sub64
      exact wrap64_of_range _ (by omega) (by omega)
    simp only [NextID, hlt, if_true, hoff]
    rw [if_pos h5, if_neg (by omega)]
  · intro t clock h
    exact issueID_later s t clock (by omega)
  · intro t clock h hq
    exact issueID_same_ms s t clock h hq0 hq
  · intro t skipped t3 rest h hq hall h3
    rw [issueID_exhausted s t _ h hq,
      spinUntilNext_skip t skipped t t3 rest (le_refl _) (by rw [← h]; exact hall)
        (by rw [← h]; exact h3)]
  · intro clock r s1 rest h he
    obtain ⟨_, _, _, hcase⟩ := NextID_some s clock r s1 rest h
    rcases hcase with ⟨hx, _⟩ | ⟨_, _, _, _, _, hc⟩
    · exact absurd he hx
    · rcases hc with ⟨_, b, _⟩ | ⟨_, b⟩
      · rw [b]
        exact and64_maxSequence_range _
      · omega
  · intro n clock log s1 rest T h
    obtain ⟨_, hle, hp⟩ := callLog_lex s clock hq0 hq1 n log s1 rest h
    have hfp := hp.sublist
      (List.filter_sublist (p := fun e => decide (e.1.err = none ∧ e.2.lastTimestamp = T)) log)
    have hseq : ((log.filter
        (fun e => decide (e.1.err = none ∧ e.2.lastTimestamp = T))).map
          (fun e => e.2.sequence)).Pairwise (fun x y => x < y) := by
      rw [List.pairwise_map]
      refine hfp.imp_of_mem ?_
      intro a b ha hb hab
      have ha1 := (List.mem_filter.mp ha).2
      have hb1 := (List.mem_filter.mp hb).2
      simp only [decide_eq_true_eq] at ha1 hb1
      rcases hab ha1.1 hb1.1 with hlt | ⟨_, hlt⟩
      · omega
      · exact hlt
    have hb : ∀ x ∈ (log.filter
        (fun e => decide (e.1.err = none ∧ e.2.lastTimestamp = T))).map
          (fun e => e.2.sequence), (0 : Int) ≤ x ∧ x ≤ 127 := by
      intro x hx
      obtain ⟨e, he, rfl⟩ := List.mem_map.mp hx
      have he1 := List.mem_filter.mp he
      have he2 := he1.2
      simp only [decide_eq_true_eq] at he2
      exact (hle e he1.1 he2.1).1
    have := length_le_of_increasing_bounded _ 0 127 hseq hb
    rw [List.length_map] at this
    simpa using this

/-- C18 witness: the 128th identifier of one millisecond has been issued; the next call
skips a reading at `lastTimestamp` and issues sequence 0 at the following millisecond. -/
theorem C18_sequence_discipline_witness :
    issueID ⟨twepoch + 10, 1, 1, 127⟩ (twepoch + 10)
        ([twepoch + 10] ++ (twepoch + 11) :: [twepoch + 12]) =
      some (⟨composeID (twepoch + 11) 1 1 0, none⟩, ⟨twepoch + 11, 1, 1, 0⟩, [twepoch + 12]) :=
  (C18_sequence_discipline ⟨twepoch + 10, 1, 1, 127⟩ (by decide) (by decide)).2.2.2.2.1
    (twepoch + 10) [twepoch + 10] (twepoch + 11) [twepoch + 12] rfl rfl (by decide) (by decide)

end Snowflake

namespace Broker

/-! ## Requests that change nothing -/

theorem keyDelete_non_member {α : Type} [DecidableEq α] (l : List α) (k : α) (h : k ∉ l) :
    keyDelete l k = l := by
  unfold keyDelete
  rw [List.filter_eq_self]
  intro a ha
  simp only [ne_eq, decide_eq_true_eq]
  exact fun hak => h (by rw [← hak]; exact ha)

theorem keyInsert_member {α : Type} [DecidableEq α] (l : List α) (k : α) (h : k ∈ l) :
    keyInsert l k = l := by
  unfold keyInsert
  rw [if_pos h]

theorem deleteMember_non_member (m : String → Option (List Ref)) (channel : String) (c : Ref)
    (h : c ∉ (m channel).getD []) : deleteMember m channel c = m := by
  unfold deleteMember
  cases hm : m channel with
  | none => rfl
  | some l =>
    simp only
    rw [hm] at h
    rw [keyDelete_non_member l c (by simpa using h), ← hm]
    exact Function.update_eq_self channel m

theorem setChannels_same (st : BrokerState) (c : Ref) :
    setChannels st c (st.clients c).Channels = st := by
  unfold setChannels
  have : Function.update st.clients c { st.clients c with Channels := (st.clients c).Channels } =
      st.clients := Function.update_eq_self c st.clients
  rw [this]

theorem leave_non_member (st : BrokerState) (c : Ref) (ch : String)
    (hm : ¬ Member st c ch) (hj : ¬ Joined st c ch) : leave st c ch = st := by
  unfold leave
  cases hC : st.Clients ch with
  | none => rfl
  | some l =>
    simp only
    rw [deleteMember_non_member st.Clients ch c hm, keyDelete_non_member _ _ hj]
    exact setChannels_same st c

/-- A `Join` of a client that is already a key of the inner map of the channel, with
the channel already a key of its `Channels` map, leaves the state as it is. -/
theorem join_fixed (st : BrokerState) (c : Ref) (ch : String)
    (hm : Member st c ch) (hj : Joined st c ch) : join st c ch = st := by
  unfold Member at hm
  unfold join
  cases hC : st.Clients ch with
  | none =>
    rw [hC] at hm
    simp at hm
  | some l =>
    rw [hC] at hm
    simp only [Option.getD_some] at hm
    simp only [hC, Option.getD_some]
    rw [keyInsert_member l c hm, keyInsert_member _ ch hj, ← hC,
      Function.update_eq_self ch st.Clients]
    exact setChannels_same st c

theorem unregister_open (st : BrokerState) (c : Ref)
    (h : (st.clients c).Send.closed = false) : ∃ st1, unregister st c = .ok st1 := by
  unfold unregister closeChan
  simp [h]

/-! ## Claims about unregister, leave and join -/

/-- C12: in a state where every channel of which `S` is a member is in `S.Channels`
(one half of membership consistency) and the queue of `S` is open, processing
`Unregister` for `S` completes, leaves `S` in no member set, closes `S.Send` with its
contents untouched, and changes neither the membership of any other client in any
channel nor any other client; no channel needs to have other members. -/
theorem C12_unregister_effect (marshal : Message → Except String Payload)
    (st : BrokerState) (S : Ref)
    (hcons : ∀ C, Member st S C → Joined st S C) (hopen : isOpen st S) :
    ∃ st1, step marshal st (.Unregister S) = .ok st1 ∧
      (∀ C, ¬ Member st1 S C) ∧
      (st1.clients S).Send.closed = true ∧
      (st1.clients S).Send.buf = (st.clients S).Send.buf ∧
      (∀ x C, x ≠ S → (Member st1 x C ↔ Member st x C)) ∧
      (∀ x, x ≠ S → st1.clients x = st.clients x) := by
  obtain ⟨st1, h⟩ := unregister_open st S hopen
  obtain ⟨_, _, hcl⟩ := unregister_ok st S st1 h
  refine ⟨st1, h, ?_, ?_, ?_, ?_, ?_⟩
  · intro C hm
    rw [unregister_Member st S st1 h] at hm
    exact hm.2 ⟨rfl, hcons C hm.1⟩
  · rw [hcl, if_pos rfl]
  · rw [hcl, if_pos rfl]
  · intro x C hx
    rw [unregister_Member st S st1 h]
    exact ⟨fun hm => hm.1, fun hm => ⟨hm, fun hh => hx hh.1⟩⟩
  · intro x hx
    rw [hcl, if_neg hx]

/-- C12 witness: client 0 is the only member of b and shares a with client 1. -/
theorem C12_unregister_effect_witness :
    ∃ st, run contentOnly init [.Join 0 "a", .Join 1 "a", .Join 0 "b"] = .ok st ∧
      ∃ st1, step contentOnly st (.Unregister 0) = .ok st1 ∧
        (∀ C, ¬ Member st1 0 C) ∧
        (st1.clients 0).Send.closed = true ∧
        (st1.clients 0).Send.buf = (st.clients 0).Send.buf ∧
        (∀ x C, x ≠ 0 → (Member st1 x C ↔ Member st x C)) ∧
        (∀ x, x ≠ 0 → st1.clients x = st.clients x) :=
  ⟨_, rfl, C12_unregister_effect contentOnly _ 0
    (by
      intro C hm
      have hC : C = "a" ∨ C = "b" := by
        by_cases ha : C = "a"
        · exact Or.inl ha
        · by_cases hb : C = "b"
          · exact Or.inr hb
          · exfalso
            simp [Member, join, init, setChannels, Function.update, ha, hb] at hm
      rcases hC with rfl | rfl
      · decide
      · decide)
    (by decide)⟩

/-- C13: when `S` is not a member of `C` (no entry for `C`, or an entry without `S`) and
`C` is not in `S.Channels`, processing `Leave(S, C)` completes and the state afterwards
is the state before: every member set, every `Channels` map and every queue. -/
theorem C13_leave_of_non_member_is_noop (marshal : Message → Except String Payload)
    (st : BrokerState) (S : Ref) (C : String)
    (hm : ¬ Member st S C) (hj : ¬ Joined st S C) :
    step marshal st (.Leave S C) = .ok st := by
  simp only [step]
  rw [leave_non_member st S C hm hj]

/-- C13 witness: client 1 leaves a channel that has an entry, and client 0 leaves a
channel that has none. -/
theorem C13_leave_of_non_member_is_noop_witness :
    step contentOnly (join init 0 "a") (.Leave 1 "a") = .ok (join init 0 "a") ∧
      step contentOnly (join init 0 "a") (.Leave 0 "nochan") = .ok (join init 0 "a") :=
  ⟨C13_leave_of_non_member_is_noop contentOnly (join init 0 "a") 1 "a" (by decide) (by decide),
    C13_leave_of_non_member_is_noop contentOnly (join init 0 "a") 0 "nochan" (by decide)
      (by decide)⟩

/-- C14: processing `Join(S, C)` completes in a state where `C` has an entry, `S` is in
`cm.Clients[C]` and `C` is in `S.Channels`; every other (client, channel) pair is a
membership after exactly when it was one before, on both sides; every queue is
unchanged; and processing `Join(S, C)` again leaves that state as it is. -/
theorem C14_join_is_exact_and_idempotent (marshal : Message → Except String Payload)
    (st : BrokerState) (S : Ref) (C : String) :
    ∃ st1, step marshal st (.Join S C) = .ok st1 ∧
      (st1.Clients C).isSome = true ∧ Member st1 S C ∧ Joined st1 S C ∧
      (∀ x ch, ¬ (x = S ∧ ch = C) →
        (Member st1 x ch ↔ Member st x ch) ∧ (Joined st1 x ch ↔ Joined st x ch)) ∧
      (∀ x, (st1.clients x).Send = (st.clients x).Send) ∧
      step marshal st1 (.Join S C) = .ok st1 := by
  have hM : Member (join st S C) S C := (join_Member st S C S C).mpr (Or.inr ⟨rfl, rfl⟩)
  have hJ : Joined (join st S C) S C := (join_Joined st S C S C).mpr (Or.inr ⟨rfl, rfl⟩)
  refine ⟨join st S C, rfl, ?_, hM, hJ, ?_, ?_, ?_⟩
  · unfold join
    simp [Function.update_same]
  · intro x ch hne
    constructor
    · rw [join_Member]
      exact ⟨fun h => h.resolve_right hne, fun h => Or.inl h⟩
    · rw [join_Joined]
      exact ⟨fun h => h.resolve_right hne, fun h => Or.inl h⟩
  · intro x
    exact join_Send st S C x
  · simp only [step]
    rw [join_fixed (join st S C) S C hM hJ]

/-- C14 witness: client 1 joins a channel that client 0 is in; client 0 is untouched. -/
theorem C14_join_is_exact_and_idempotent_witness :
    (Member (join (join init 0 "a") 1 "a") 0 "a" ↔ Member (join init 0 "a") 0 "a") ∧
      (Joined (join (join init 0 "a") 1 "a") 0 "a" ↔ Joined (join init 0 "a") 0 "a") := by
  obtain ⟨st1, h, _, _, _, hother, _⟩ :=
    C14_join_is_exact_and_idempotent contentOnly (join init 0 "a") 1 "a"
  simp only [step, Except.ok.injEq] at h
  subst h
  exact hother 0 "a" (by decide)

/-! ## Where memberships come from -/

theorem fanOut_Member_sub (channel : String) (data : Payload) :
    ∀ (l : List Ref) (st st1 : BrokerState), fanOut channel data l st = .ok st1 →
      ∀ x ch, Member st1 x ch → Member st x ch := by
  intro l
  induction l with
  | nil =>
    intro st st1 h x ch hm
    simp only [fanOut, Except.ok.injEq] at h
    subst h
    exact hm
  | cons c l ih =>
    intro st st1 h x ch hm
    simp only [fanOut] at h
    cases hd : deliver channel data st c with
    | error e => rw [hd] at h; cases h
    | ok st2 =>
      rw [hd] at h
      obtain ⟨_, hM, _⟩ := deliver_membership channel data st c st2 hd
      exact ((hM x ch).mp (ih st2 st1 h x ch hm)).1

/-- A membership found after a request was there before it, unless the request is the
`Join` of that client to that channel. -/
theorem step_Member_origin (marshal : Message → Except String Payload) (st : BrokerState)
    (r : Request) (st1 : BrokerState) (h : step marshal st r = .ok st1) (x : Ref) (ch : String)
    (hm : Member st1 x ch) : Member st x ch ∨ r = .Join x ch := by
  cases r with
  | Register c =>
    simp only [step, Except.ok.injEq] at h
    subst h
    exact Or.inl hm
  | Unregister c =>
    simp only [step] at h
    rw [unregister_Member st c st1 h] at hm
    exact Or.inl hm.1
  | Join c ch0 =>
    simp only [step, Except.ok.injEq] at h
    subst h
    rw [join_Member] at hm
    rcases hm with hm | ⟨rfl, rfl⟩
    · exact Or.inl hm
    · exact Or.inr rfl
  | Leave c ch0 =>
    simp only [step, Except.ok.injEq] at h
    subst h
    rw [leave_Member] at hm
    exact Or.inl hm.1
  | Broadcast m =>
    simp only [step, broadcast] at h
    cases hmar : marshal m with
    | error e =>
      rw [hmar] at h
      simp only [Except.ok.injEq] at h
      subst h
      exact Or.inl hm
    | ok data =>
      rw [hmar] at h
      exact Or.inl (fanOut_Member_sub m.Channel data _ st st1 h x ch hm)

theorem run_Member_origin (marshal : Message → Except String Payload) :
    ∀ (reqs : List Request) (st st1 : BrokerState), run marshal st reqs = .ok st1 →
      ∀ x ch, Member st1 x ch → Member st x ch ∨ Request.Join x ch ∈ reqs := by
  intro reqs
  induction reqs with
  | nil =>
    intro st st1 h x ch hm
    simp only [run, Except.ok.injEq] at h
    subst h
    exact Or.inl hm
  | cons r reqs ih =>
    intro st st1 h x ch hm
    simp only [run] at h
    cases hs : step marshal st r with
    | error e => rw [hs] at h; cases h
    | ok st2 =>
      rw [hs] at h
      rcases ih st2 st1 h x ch hm with h2 | h2
      · rcases step_Member_origin marshal st r st2 hs x ch h2 with h3 | h3
        · exact Or.inl h3
        · exact Or.inr (by rw [h3]; simp)
      · exact Or.inr (by simp [h2])

/-- C15 (as stated, refuted): client 0 joins a and is unregistered. A later `Join` to b
is not a no-op, it makes the client a member of b; and a later `Leave` from a is not
a no-op either, it removes a from the `Channels` map of the client. -/
theorem C15_join_after_unregister_takes_effect :
    (∃ st st1, run contentOnly init [.Join 0 "a", .Unregister 0] = .ok st ∧
      step contentOnly st (.Join 0 "b") = .ok st1 ∧
      ¬ Member st 0 "b" ∧ Member st1 0 "b" ∧ (st1.clients 0).Send.closed = true) ∧
    (∃ st st1, run contentOnly init [.Join 0 "a", .Unregister 0] = .ok st ∧
      step contentOnly st (.Leave 0 "a") = .ok st1 ∧
      (st.clients 0).Channels = ["a"] ∧ (st1.clients 0).Channels = []) :=
  ⟨⟨_, _, rfl, rfl, by decide, by decide, rfl⟩, ⟨_, _, rfl, rfl, by decide, by decide⟩⟩

/-- C15 (as amended): once `Unregister` for `S` has been processed, in a state where every
channel of which `S` was a member was in `S.Channels`, `S` is a member of no channel;
after any later requests `S` is a member of a channel `C` only if one of them is
`Join(S, C)`; and a later `Leave` naming `S`, processed while `S` is a member of no
channel, completes and leaves every member set and every queue unchanged. -/
theorem C15_member_again_only_through_join (marshal : Message → Except String Payload)
    (st st1 : BrokerState) (S : Ref)
    (hcons : ∀ C, Member st S C → Joined st S C)
    (hun : step marshal st (.Unregister S) = .ok st1)
    (reqs : List Request) (st2 : BrokerState) (hrun : run marshal st1 reqs = .ok st2) :
    (∀ C, ¬ Member st1 S C) ∧
    (∀ C, Member st2 S C → Request.Join S C ∈ reqs) ∧
    ((∀ C, Request.Join S C ∉ reqs) → ∀ C0, ∃ st3,
      step marshal st2 (.Leave S C0) = .ok st3 ∧ st3.Clients = st2.Clients ∧
      ∀ x, (st3.clients x).Send = (st2.clients x).Send) := by
  have h1 : ∀ C, ¬ Member st1 S C := by
    intro C hm
    simp only [step] at hun
    rw [unregister_Member st S st1 hun] at hm
    exact hm.2 ⟨rfl, hcons C hm.1⟩
  have h2 : ∀ C, Member st2 S C → Request.Join S C ∈ reqs := by
    intro C hm
    rcases run_Member_origin marshal reqs st1 st2 hrun S C hm with h | h
    · exact absurd h (h1 C)
    · exact h
  refine ⟨h1, h2, ?_⟩
  intro hno C0
  have hnm : ¬ Member st2 S C0 := fun hm => hno C0 (h2 C0 hm)
  refine ⟨leave st2 S C0, rfl, ?_, fun x => leave_Send st2 S C0 x⟩
  unfold leave
  split
  · simp only [setChannels_Clients]
    exact deleteMember_non_member st2.Clients C0 S hnm
  · rfl

/-- C15 witness: client 0 is unregistered, client 1 joins and a message is broadcast. -/
theorem C15_member_again_only_through_join_witness :
    ∃ st1 st2, step contentOnly (join (join init 0 "a") 0 "b") (.Unregister 0) = .ok st1 ∧
      run contentOnly st1 [.Join 1 "a", .Broadcast ⟨"message", "a", "hi", "u"⟩] = .ok st2 ∧
      (∀ C, ¬ Member st1 0 C) ∧
      (∀ C, Member st2 0 C →
        Request.Join 0 C ∈ [Request.Join 1 "a", .Broadcast ⟨"message", "a", "hi", "u"⟩]) ∧
      ((∀ C, Request.Join 0 C ∉ [Request.Join 1 "a", .Broadcast ⟨"message", "a", "hi", "u"⟩]) →
        ∀ C0, ∃ st3, step contentOnly st2 (.Leave 0 C0) = .ok st3 ∧
          st3.Clients = st2.Clients ∧ ∀ x, (st3.clients x).Send = (st2.clients x).Send) :=
  ⟨_, _, rfl, rfl,
    C15_member_again_only_through_join contentOnly (join (join init 0 "a") 0 "b") _ 0
      (by
        intro C hm
        rw [join_Member, join_Member] at hm
        rw [join_Joined, join_Joined]
        rcases hm with (hm | hm) | hm
        · exact absurd hm (by simp [Member, init])
        · exact Or.inl (Or.inr hm)
        · exact Or.inr hm)
      rfl [.Join 1 "a", .Broadcast ⟨"message", "a", "hi", "u"⟩] _ rfl⟩

end Broker

namespace Main

/-- C16: for an inbound envelope of type message from the client with identifier `Id`,
the envelope handed to the `Broadcast` queue has `Sender` equal to the fixed prefix
followed by `Id` in decimal and the inbound type, channel and content; an inbound
envelope that differs from it in the sender only is handed over as the same
envelope. -/
theorem C16_sender_is_server_assigned (ref : Broker.Ref) (client : Broker.Client)
    (message : Broker.Message) (h : message.Typ = "message") :
    dispatch ref client message =
        some (.Broadcast ⟨"message", message.Channel, message.Content,
          "用户" ++ toString client.Id⟩) ∧
      ∀ supplied : String,
        dispatch ref client { message with Sender := supplied } =
          dispatch ref client message := by
  constructor
  · unfold dispatch senderOf
    rw [h]
    simp
  · intro supplied
    unfold dispatch
    simp only [h]

/-- C16 witness: client 42 sends a message that claims another sender. -/
theorem C16_sender_is_server_assigned_witness :
    dispatch 7 ⟨42, ⟨[], 256, false⟩, []⟩ ⟨"message", "general", "hi", "admin"⟩ =
        some (.Broadcast ⟨"message", "general", "hi", "用户42"⟩) ∧
      dispatch 7 ⟨42, ⟨[], 256, false⟩, []⟩ ⟨"message", "general", "hi", "someone else"⟩ =
        dispatch 7 ⟨42, ⟨[], 256, false⟩, []⟩ ⟨"message", "general", "hi", "admin"⟩ :=
  ⟨(C16_sender_is_server_assigned 7 ⟨42, ⟨[], 256, false⟩, []⟩
      ⟨"message", "general", "hi", "admin"⟩ rfl).1,
    (C16_sender_is_server_assigned 7 ⟨42, ⟨[], 256, false⟩, []⟩
      ⟨"message", "general", "hi", "admin"⟩ rfl).2 "someone else"⟩

end Main
